import Mathlib

/-!
# ct-diag-server: package `diag`

A shallow embedding of `diag/diag.go`: the diagnosis key data model, the
`Repository` interface, the `Service` methods that delegate to it, and
`Service.ParseDiagnosisKeys`, the decoder of the 20-byte wire records.

Conventions of the embedding:

* a Go `byte` is a `Fin 256`; a Go `int` is an `Int`; a `uint32` is a `Nat`
  kept below `2 ^ 32` by an explicit `% 2 ^ 32` where the source shifts;
* a Go `error` is an `Option GoError`, `none` being `nil`;
* a Go slice of keys is an `Option (List DiagnosisKey)`, `none` being the nil
  slice;
* a run-time panic of the Go program is the `error` side of `Except Panic`;
* the state hidden behind an interface value (`io.Reader`, `Repository`) is
  passed explicitly.
-/

namespace Diag

/-! ## Constants and errors -/

/-- Go `byte`. -/
abbrev Byte := Fin 256

/-- The maximum amount of diagnosis keys to be uploaded per request. -/
def MaxUploadBatchSize : Nat := 14

/-- The size of a diagnosis key on the wire: 16 bytes of key, 4 bytes of interval number. -/
def DiagnosisKeySize : Nat := 20

/-- The size limit for uploading diagnosis keys, in bytes. -/
def UploadLimit : Nat := MaxUploadBatchSize * DiagnosisKeySize

/-- The error values the package deals with: `io.EOF`, `io.ErrUnexpectedEOF`, the two
errors the package declares, and any other error value, told apart by a tag. -/
inductive GoError where
  | EOF
  | ErrUnexpectedEOF
  | ErrNilDiagKeys
  | ErrMaxUploadExceeded
  | other (tag : Nat)
  deriving DecidableEq, Repr

/-- The run-time panics the embedded code can raise. -/
inductive Panic where
  | indexOutOfRange
  | sliceBoundsOutOfRange
  | makesliceLenOutOfRange
  deriving DecidableEq, Repr

deriving instance DecidableEq for Except

/-! ## Data model -/

/-- Go `[16]byte`. -/
abbrev Array16 := { l : List Byte // l.length = 16 }

/-- The zero value of `[16]byte`. -/
def Array16.zero : Array16 := ⟨List.replicate 16 0, by simp⟩

/-- The combination of a `TemporaryExposureKey` and its `ENIntervalNumber` (a `uint32`). -/
structure DiagnosisKey where
  TemporaryExposureKey : Array16
  ENIntervalNumber : Nat
  deriving DecidableEq

/-- The zero value of `DiagnosisKey`, which `make` fills a fresh slice with. -/
def DiagnosisKey.zero : DiagnosisKey := ⟨Array16.zero, 0⟩

/-- Go `Repository` interface over a repository state `σ`; `κ` is `context.Context`.
Each method may change the state and returns the new one with its results. -/
structure Repository (κ σ : Type) where
  StoreDiagnosisKeys : κ → Option (List DiagnosisKey) → σ → σ × Option GoError
  FindAllDiagnosisKeys : κ → σ → σ × (Option (List DiagnosisKey) × Option GoError)

/-- The service for managing diagnosis keys. -/
structure Service (κ σ : Type) where
  repo : Repository κ σ

/-- Go `io.Reader` over a reader state `ρ`. `Read` is given the buffer `p` and returns the
new state, the bytes it stored into `p` from `p[0]` on, the count `n` and the error. -/
structure Reader (ρ : Type) where
  Read : ρ → List Byte → ρ × List Byte × Int × Option GoError

/-! ## Go built-ins and `encoding/binary` -/

/-- Go `make([]byte, len)` for a constant, non-negative `len`. -/
def makeBytes (len : Nat) : List Byte := List.replicate len 0

/-- Go `copy(dst, src)`: the contents of `dst` afterwards. The first
`min (len dst) (len src)` elements come from `src`, the rest of `dst` stays. -/
def copy {α : Type} (dst src : List α) : List α :=
  src.take dst.length ++ dst.drop src.length

/-- Go slice expression `a[low:high]` on a slice whose capacity is its length. -/
def sliceExpr (a : List Byte) (low high : Nat) : Except Panic (List Byte) :=
  if low ≤ high ∧ high ≤ a.length then .ok ((a.drop low).take (high - low))
  else .error .sliceBoundsOutOfRange

/-- Go `binary.BigEndian.Uint32(b)`:
`uint32(b[3]) | uint32(b[2])<<8 | uint32(b[1])<<16 | uint32(b[0])<<24`, after the bounds
check `_ = b[3]`. -/
def BigEndian.Uint32 (b : List Byte) : Except Panic Nat :=
  if h : 3 < b.length then
    .ok (b[3].val ||| (b[2].val <<< 8) % 2 ^ 32 ||| (b[1].val <<< 16) % 2 ^ 32
      ||| (b[0].val <<< 24) % 2 ^ 32)
  else .error .indexOutOfRange

/-- The largest allocation the Go runtime accepts, `maxAlloc`, on a 64-bit build: `2 ^ 48`
bytes. -/
def maxAlloc : Nat := 2 ^ 48

/-- Go `make([]DiagnosisKey, len)`: panics with `makeslice: len out of range` on a negative
length and on a length whose `len * 20` bytes (a `DiagnosisKey` takes 20 bytes of memory)
exceed `maxAlloc`. -/
def makeKeys (len : Int) : Except Panic (List DiagnosisKey) :=
  if 0 ≤ len ∧ len * 20 ≤ (maxAlloc : Int) then
    .ok (List.replicate len.toNat DiagnosisKey.zero)
  else .error .makesliceLenOutOfRange

/-- Go index assignment `s[i] = v`. -/
def setIndex (s : List DiagnosisKey) (i : Nat) (v : DiagnosisKey) :
    Except Panic (List DiagnosisKey) :=
  if i < s.length then .ok (s.set i v) else .error .indexOutOfRange

/-- The statements `var key [16]byte; copy(key[:], src)`. -/
def Array16.copyFrom (src : List Byte) : Array16 :=
  ⟨copy Array16.zero.val src, by
    simp only [copy, List.length_append, List.length_take, List.length_drop, Array16.zero,
      List.length_replicate]
    omega⟩

/-! ## The service -/

/-- Returns a new `Service`. -/
def NewService {κ σ : Type} (repo : Repository κ σ) : Service κ σ := ⟨repo⟩

/-- Persists a set of diagnosis keys to the repository. -/
def Service.StoreDiagnosisKeys {κ σ : Type} (s : Service κ σ) (ctx : κ)
    (diagKeys : Option (List DiagnosisKey)) : σ → σ × Option GoError :=
  s.repo.StoreDiagnosisKeys ctx diagKeys

/-- Fetches all diagnosis keys from the repository. -/
def Service.FindAllDiagnosisKeys {κ σ : Type} (s : Service κ σ) (ctx : κ) :
    σ → σ × (Option (List DiagnosisKey) × Option GoError) :=
  s.repo.FindAllDiagnosisKeys ctx

/-- The loop `for i := 0; i < keyCount; i++ { ... }` of `ParseDiagnosisKeys`. The first
numeric argument is the number of iterations left, `keyCount - i`. -/
def ParseDiagnosisKeys.loop (buf : List Byte) :
    Nat → Nat → List DiagnosisKey → Except Panic (List DiagnosisKey)
  | 0, _, diagKeys => .ok diagKeys
  | left + 1, i, diagKeys => do
    let start := i * DiagnosisKeySize
    let src ← sliceExpr buf start (start + 16)
    let key := Array16.copyFrom src
    let b ← sliceExpr buf (start + 16) (start + DiagnosisKeySize)
    let enin ← BigEndian.Uint32 b
    let diagKeys ← setIndex diagKeys i ⟨key, enin⟩
    ParseDiagnosisKeys.loop buf left (i + 1) diagKeys

/-- The body of `ParseDiagnosisKeys` after `n, err := r.Read(buf)`: the `switch` and the
decoding of `n / DiagnosisKeySize` records out of `buf`. Go's `%` and `/` truncate. -/
def ParseDiagnosisKeys.afterRead (buf : List Byte) (n : Int) (err : Option GoError) :
    Except Panic (Option (List DiagnosisKey) × Option GoError) :=
  if err ≠ none ∧ err ≠ some GoError.EOF then .ok (none, err)
  else if n = 0 then .ok (none, some GoError.ErrUnexpectedEOF)
  else if n = (UploadLimit : Int) + 1 then .ok (none, some GoError.ErrMaxUploadExceeded)
  else if n.tmod (DiagnosisKeySize : Int) ≠ 0 then .ok (none, some GoError.ErrUnexpectedEOF)
  else do
    let keyCount := n.tdiv (DiagnosisKeySize : Int)
    let diagKeys ← makeKeys keyCount
    let diagKeys ← ParseDiagnosisKeys.loop buf keyCount.toNat 0 diagKeys
    .ok (some diagKeys, none)

/-- Reads and parses diagnosis keys from an `io.Reader`: one `Read` into a fresh buffer of
`UploadLimit + 1` bytes, then the `switch` and the decoding loop. Returns the reader's new
state with the result. -/
def Service.ParseDiagnosisKeys {κ σ ρ : Type} (_s : Service κ σ) (r : Reader ρ) (st : ρ) :
    ρ × Except Panic (Option (List DiagnosisKey) × Option GoError) :=
  let buf := makeBytes (UploadLimit + 1)
  let out := r.Read st buf
  (out.1, ParseDiagnosisKeys.afterRead (copy buf out.2.1) out.2.2.1 out.2.2.2)

/-! ## Definitions the statements are written with -/

/-- Go `len` of a slice of keys; the nil slice has length 0. -/
def len (s : Option (List DiagnosisKey)) : Nat := (s.getD []).length

/-- The contents of the buffer of `ParseDiagnosisKeys` after a `Read` that stored `w` into
it: `w` laid over the fresh `UploadLimit + 1` zero bytes. -/
def bufferAfter (w : List Byte) : List Byte := copy (makeBytes (UploadLimit + 1)) w

/-- Big-endian value of four bytes. -/
def be32 (b0 b1 b2 b3 : Byte) : Nat :=
  b0.val * 2 ^ 24 + b1.val * 2 ^ 16 + b2.val * 2 ^ 8 + b3.val

/-- The key a 20-byte record holds: its first 16 bytes and the big-endian value of the
four bytes after them. -/
def decodeRecord (rec : List Byte) : DiagnosisKey :=
  ⟨Array16.copyFrom (rec.take 16),
    be32 (rec.getD 16 0) (rec.getD 17 0) (rec.getD 18 0) (rec.getD 19 0)⟩

/-- The key that record `j` of the buffer holds. -/
def recordAt (buf : List Byte) (j : Nat) : DiagnosisKey :=
  decodeRecord ((buf.drop (j * 20)).take 20)

/-- The 4-byte big-endian encoding of a `uint32`, as Go `binary.BigEndian.PutUint32`
writes it: `byte(v >> 24)`, `byte(v >> 16)`, `byte(v >> 8)`, `byte(v)`. -/
def PutUint32 (v : Nat) : List Byte :=
  [⟨(v >>> 24) % 256, Nat.mod_lt _ (by decide)⟩, ⟨(v >>> 16) % 256, Nat.mod_lt _ (by decide)⟩,
    ⟨(v >>> 8) % 256, Nat.mod_lt _ (by decide)⟩, ⟨v % 256, Nat.mod_lt _ (by decide)⟩]

/-- The wire encoding of one key: its 16 token bytes, then the 4-byte big-endian interval
number. -/
def encodeKey (k : DiagnosisKey) : List Byte :=
  k.TemporaryExposureKey.val ++ PutUint32 k.ENIntervalNumber

/-- The wire encoding of a batch: the encodings of its keys, concatenated in order. -/
def encodeKeys : List DiagnosisKey → List Byte
  | [] => []
  | k :: ks => encodeKey k ++ encodeKeys ks

/-- A reader over a byte string that behaves as Go `bytes.Reader`: at the end of the data
`Read` returns `0, io.EOF`; otherwise it copies as much of the remaining data as fits into
`p` and returns the count with a nil error. The state is the data not yet read. -/
def BytesReader : Reader (List Byte) where
  Read rest p :=
    if rest.length = 0 then (rest, [], 0, some GoError.EOF)
    else (rest.drop p.length, rest.take p.length, ((min p.length rest.length : Nat) : Int), none)

/-- A reader whose `Read` stores its data into `p`, reports the count `n` and fails with
the error `e`, as a transport that breaks does. The state is the data. -/
def FailingReader (n : Int) (e : GoError) : Reader (List Byte) where
  Read data p := (data, data.take p.length, n, some e)

/-- A call made on a repository. -/
inductive RepoCall (κ : Type) where
  | store (ctx : κ) (diagKeys : Option (List DiagnosisKey))
  | findAll (ctx : κ)

/-- The repository `r` with a log of the calls made on it: every method appends its call
to the log and otherwise does what `r` does. -/
def Repository.traced {κ σ : Type} (r : Repository κ σ) :
    Repository κ (σ × List (RepoCall κ)) where
  StoreDiagnosisKeys ctx diagKeys st :=
    (((r.StoreDiagnosisKeys ctx diagKeys st.1).1, st.2 ++ [RepoCall.store ctx diagKeys]),
      (r.StoreDiagnosisKeys ctx diagKeys st.1).2)
  FindAllDiagnosisKeys ctx st :=
    (((r.FindAllDiagnosisKeys ctx st.1).1, st.2 ++ [RepoCall.findAll ctx]),
      (r.FindAllDiagnosisKeys ctx st.1).2)

/-- A repository that keeps the keys in memory, in a list, and stores every batch it is
given as it is, the empty one too. -/
def MemoryRepo (κ : Type) : Repository κ (List DiagnosisKey) where
  StoreDiagnosisKeys _ diagKeys rows := (rows ++ diagKeys.getD [], none)
  FindAllDiagnosisKeys _ rows := (rows, some rows, none)

/-! ## The postgres repository -/

/-- Modelled from the spec: one `INSERT` of the postgres client's store, which is missing
from the sources (only `postgres/client_test.go` is there). The repository "must dedup on
(token, interval number) identity, both within the batch and against existing stored keys":
a key already among the rows is not inserted again. -/
def Postgres.insertKey (rows : List DiagnosisKey) (k : DiagnosisKey) : List DiagnosisKey :=
  if k ∈ rows then rows else rows ++ [k]

/-- Modelled from the spec: the postgres `Client` as a `Repository`, missing from the
sources. The state is the rows of table `diagnosis_keys`. `StoreDiagnosisKeys` rejects an
empty batch with `ErrNilDiagKeys` (the "empty input array" case of its test) and otherwise
inserts the keys of the batch one by one, skipping those already stored;
`FindAllDiagnosisKeys` returns the rows, the nil slice when there is none ("no diagnosis
keys in database"), and no error. -/
def Postgres.Client (κ : Type) : Repository κ (List DiagnosisKey) where
  StoreDiagnosisKeys _ diagKeys rows :=
    if len diagKeys = 0 then (rows, some GoError.ErrNilDiagKeys)
    else ((diagKeys.getD []).foldl Postgres.insertKey rows, none)
  FindAllDiagnosisKeys _ rows :=
    (rows, if rows.length = 0 then none else some rows, none)

/-- The key of `postgres/client_test.go`: bytes 1 to 16, interval number 42. -/
def testKey : DiagnosisKey :=
  ⟨⟨[1, 2, 3, 4, 5, 6, 7, 8, 9, 10, 11, 12, 13, 14, 15, 16], by decide⟩, 42⟩

/-- A reader given as the sequence of the outcomes of its successive `Read` calls: each
call hands out the next outcome (the bytes stored, the count, the error); once the sequence
is used up, `Read` returns `0, io.EOF`. -/
def ScriptReader : Reader (List (List Byte × Int × Option GoError)) where
  Read script _ :=
    match script with
    | [] => ([], [], 0, some GoError.EOF)
    | out :: rest => (rest, out)

/-- A reader over a byte string that delivers at most `chunk` bytes per `Read`, as a
transport that hands the payload over in fragments does; otherwise as `BytesReader`. -/
def ChunkReader (chunk : Nat) : Reader (List Byte) where
  Read rest p :=
    if rest.length = 0 then (rest, [], 0, some GoError.EOF)
    else (rest.drop (min chunk p.length), rest.take (min chunk p.length),
      ((min (min chunk p.length) rest.length : Nat) : Int), none)

/-- The reader `r` with a log of the `Read` calls made on it: every call appends the
length of the buffer it was given and otherwise does what `r` does. -/
def Reader.traced {ρ : Type} (r : Reader ρ) : Reader (ρ × List Nat) where
  Read st p := (((r.Read st.1 p).1, st.2 ++ [p.length]), (r.Read st.1 p).2)

/-- The payload `b` reaches `ParseDiagnosisKeys` in one `Read`: the single `Read` on the
fresh buffer reports `len b` bytes, these bytes are `b`, and the error is nil or `io.EOF`. -/
def Reader.delivers {ρ : Type} (r : Reader ρ) (st : ρ) (b : List Byte) : Prop :=
  (r.Read st (makeBytes (UploadLimit + 1))).2.2.1 = (b.length : Int) ∧
  (bufferAfter (r.Read st (makeBytes (UploadLimit + 1))).2.1).take b.length = b ∧
  ((r.Read st (makeBytes (UploadLimit + 1))).2.2.2 = none ∨
    (r.Read st (makeBytes (UploadLimit + 1))).2.2.2 = some GoError.EOF)

instance Reader.decidableDelivers {ρ : Type} (r : Reader ρ) (st : ρ) (b : List Byte) :
    Decidable (r.delivers st b) := by
  unfold Reader.delivers
  infer_instance

/-- One entry of the iteration log of the decoding loop: the index `i` of the iteration and
the bounds of the two slice expressions it takes, `buf[keyLow:keyHigh]` and
`buf[eninLow:eninHigh]`. -/
structure LoopEntry where
  i : Nat
  keyLow : Nat
  keyHigh : Nat
  eninLow : Nat
  eninHigh : Nat
  deriving DecidableEq, Repr

/-- The entry iteration `i` of the decoding loop logs: `start = i * 20`, slices
`buf[start:start+16]` and `buf[start+16:start+20]`. -/
def loopEntry (i : Nat) : LoopEntry := ⟨i, i * 20, i * 20 + 16, i * 20 + 16, i * 20 + 20⟩

/-- The loop of `ParseDiagnosisKeys` with a log of its iterations: the same statements as
`ParseDiagnosisKeys.loop`, each run of the body appending to the log its index `i` and the
bounds of the two slice expressions it takes. -/
def ParseDiagnosisKeys.loopLog (buf : List Byte) :
    Nat → Nat → List DiagnosisKey → List LoopEntry →
      Except Panic (List DiagnosisKey × List LoopEntry)
  | 0, _, diagKeys, log => .ok (diagKeys, log)
  | left + 1, i, diagKeys, log => do
    let start := i * DiagnosisKeySize
    let src ← sliceExpr buf start (start + 16)
    let key := Array16.copyFrom src
    let b ← sliceExpr buf (start + 16) (start + DiagnosisKeySize)
    let enin ← BigEndian.Uint32 b
    let diagKeys ← setIndex diagKeys i ⟨key, enin⟩
    ParseDiagnosisKeys.loopLog buf left (i + 1) diagKeys
      (log ++ [⟨i, start, start + 16, start + 16, start + DiagnosisKeySize⟩])

/-- The body of `ParseDiagnosisKeys` after the `Read`, with the iteration log of its loop:
the same statements as `ParseDiagnosisKeys.afterRead`, the loop being run with its log. A
return out of the `switch` leaves the log empty: the loop was not entered. -/
def ParseDiagnosisKeys.afterReadLog (buf : List Byte) (n : Int) (err : Option GoError) :
    Except Panic ((Option (List DiagnosisKey) × Option GoError) × List LoopEntry) :=
  if err ≠ none ∧ err ≠ some GoError.EOF then .ok ((none, err), [])
  else if n = 0 then .ok ((none, some GoError.ErrUnexpectedEOF), [])
  else if n = (UploadLimit : Int) + 1 then .ok ((none, some GoError.ErrMaxUploadExceeded), [])
  else if n.tmod (DiagnosisKeySize : Int) ≠ 0 then
    .ok ((none, some GoError.ErrUnexpectedEOF), [])
  else do
    let keyCount := n.tdiv (DiagnosisKeySize : Int)
    let diagKeys ← makeKeys keyCount
    let out ← ParseDiagnosisKeys.loopLog buf keyCount.toNat 0 diagKeys []
    .ok ((some out.1, none), out.2)

theorem lor_shift_eq_sum (a b c d : Nat) (ha : a < 256) (hb : b < 256) (hc : c < 256)
    (hd : d < 256) :
    d ||| (c <<< 8) % 2 ^ 32 ||| (b <<< 16) % 2 ^ 32 ||| (a <<< 24) % 2 ^ 32
      = a * 2 ^ 24 + b * 2 ^ 16 + c * 2 ^ 8 + d := by
  have h1 : (c <<< 8) % 2 ^ 32 = 2 ^ 8 * c := by rw [Nat.shiftLeft_eq]; omega
  have h2 : (b <<< 16) % 2 ^ 32 = 2 ^ 16 * b := by rw [Nat.shiftLeft_eq]; omega
  have h3 : (a <<< 24) % 2 ^ 32 = 2 ^ 24 * a := by rw [Nat.shiftLeft_eq]; omega
  have e1 : 2 ^ 8 * c + d = 2 ^ 8 * c ||| d := Nat.mul_add_lt_is_or (by omega) c
  have e2 : 2 ^ 16 * b + (2 ^ 8 * c + d) = 2 ^ 16 * b ||| (2 ^ 8 * c + d) :=
    Nat.mul_add_lt_is_or (by omega) b
  have e3 : 2 ^ 24 * a + (2 ^ 16 * b + (2 ^ 8 * c + d))
      = 2 ^ 24 * a ||| (2 ^ 16 * b + (2 ^ 8 * c + d)) :=
    Nat.mul_add_lt_is_or (by omega) a
  rw [h1, h2, h3, Nat.lor_comm d, Nat.lor_comm _ (2 ^ 16 * b), Nat.lor_comm _ (2 ^ 24 * a),
    ← e1, ← e2, ← e3]
  ring

theorem uint32_window (buf : List Byte) (s : Nat) (h : s + 4 ≤ buf.length) :
    BigEndian.Uint32 ((buf.drop s).take 4)
      = .ok (be32 (buf.getD s 0) (buf.getD (s + 1) 0) (buf.getD (s + 2) 0)
          (buf.getD (s + 3) 0)) := by
  have hl : ((buf.drop s).take 4).length = 4 := by
    simp only [List.length_take, List.length_drop]; omega
  unfold BigEndian.Uint32
  rw [dif_pos (by omega)]
  simp only [List.getElem_take, List.getElem_drop, be32]
  rw [lor_shift_eq_sum _ _ _ _ (Fin.isLt _) (Fin.isLt _) (Fin.isLt _) (Fin.isLt _)]
  simp [List.getD_eq_getElem?_getD, List.getElem?_eq_getElem, show s < buf.length by omega,
    show s + 1 < buf.length by omega, show s + 2 < buf.length by omega,
    show s + 3 < buf.length by omega]

theorem recordAt_eq (buf : List Byte) (j : Nat) :
    recordAt buf j
      = ⟨Array16.copyFrom ((buf.drop (j * 20)).take 16),
          be32 (buf.getD (j * 20 + 16) 0) (buf.getD (j * 20 + 16 + 1) 0)
            (buf.getD (j * 20 + 16 + 2) 0) (buf.getD (j * 20 + 16 + 3) 0)⟩ := by
  simp [recordAt, decodeRecord, List.take_take, List.getD_eq_getElem?_getD, List.getElem?_take,
    Nat.add_assoc]

theorem loop_eq (buf : List Byte) :
    ∀ (left i : Nat) (ks : List DiagnosisKey), ks.length = i + left →
      (i + left) * 20 ≤ buf.length →
      ParseDiagnosisKeys.loop buf left i ks
        = .ok (ks.take i ++ (List.range' i left).map (recordAt buf)) := by
  intro left
  induction left with
  | zero =>
    intro i ks hk _
    simp [ParseDiagnosisKeys.loop, List.take_of_length_le (show ks.length ≤ i by omega)]
  | succ left ih =>
    intro i ks hk hb
    have hs1 : sliceExpr buf (i * DiagnosisKeySize) (i * DiagnosisKeySize + 16)
        = .ok ((buf.drop (i * 20)).take 16) := by
      unfold sliceExpr DiagnosisKeySize
      rw [if_pos (by omega)]
      simp
    have hs2 : sliceExpr buf (i * DiagnosisKeySize + 16) (i * DiagnosisKeySize + DiagnosisKeySize)
        = .ok ((buf.drop (i * 20 + 16)).take 4) := by
      unfold sliceExpr DiagnosisKeySize
      rw [if_pos (by omega)]
      simp
    have hset : ∀ v, setIndex ks i v = .ok (ks.set i v) := by
      intro v
      unfold setIndex
      rw [if_pos (by omega)]
    have hu := uint32_window buf (i * 20 + 16) (by omega)
    simp only [ParseDiagnosisKeys.loop, hs1, hs2, hu, hset, bind, Except.bind]
    rw [ih (i + 1) _ (by simp; omega) (by omega)]
    congr 1
    rw [List.range'_succ, List.map_cons, List.take_succ]
    rw [recordAt_eq]
    simp [List.getElem?_set, show i < ks.length by omega]
    rw [List.set_take, List.set_eq_of_length_le (by simp)]


theorem copyFrom_val (src : List Byte) (h : src.length = 16) :
    (Array16.copyFrom src).val = src := by
  simp [Array16.copyFrom, copy, Array16.zero, h]

theorem recordAt_token (buf : List Byte) (j : Nat) (h : j * 20 + 16 ≤ buf.length) :
    (recordAt buf j).TemporaryExposureKey.val = (buf.drop (j * 20)).take 16 := by
  rw [recordAt_eq]
  exact copyFrom_val _ (by simp only [List.length_take, List.length_drop]; omega)

theorem makeKeys_ok (len : Int) (h0 : 0 ≤ len) (h1 : len * 20 ≤ 281474976710656) :
    makeKeys len = .ok (List.replicate len.toNat DiagnosisKey.zero) := by
  unfold makeKeys maxAlloc
  rw [if_pos ⟨h0, by norm_num; omega⟩]

theorem makeKeys_out_of_range (len : Int) (h : len < 0 ∨ 281474976710656 < len * 20) :
    makeKeys len = .error Panic.makesliceLenOutOfRange := by
  unfold makeKeys maxAlloc
  rw [if_neg (by norm_num; omega)]

theorem afterRead_soft (buf : List Byte) (n : Int) (err : Option GoError)
    (herr : err = none ∨ err = some GoError.EOF) :
    ParseDiagnosisKeys.afterRead buf n err
      = ParseDiagnosisKeys.afterRead buf n none := by
  rcases herr with h | h <;> subst h <;> simp [ParseDiagnosisKeys.afterRead]

theorem afterRead_valid (buf : List Byte) (n : Int) (err : Option GoError)
    (herr : err = none ∨ err = some GoError.EOF) (hpos : 0 < n) (hmul : n % 20 = 0)
    (hle : n ≤ 280) (hbuf : n ≤ buf.length) :
    ParseDiagnosisKeys.afterRead buf n err
      = .ok (some ((List.range (n / 20).toNat).map (recordAt buf)), none) := by
  rw [afterRead_soft buf n err herr]
  have htm : n.tmod 20 = 0 := by rw [Int.tmod_eq_emod (by omega) (by omega)]; exact hmul
  have htd : n.tdiv 20 = n / 20 := Int.tdiv_eq_ediv (by omega) (by omega)
  have hloop := loop_eq buf (n / 20).toNat 0
    (List.replicate (n / 20).toNat DiagnosisKey.zero) (by simp) (by omega)
  have hmk := makeKeys_ok (n / 20) (by omega) (by omega)
  simp only [ParseDiagnosisKeys.afterRead, UploadLimit, MaxUploadBatchSize, DiagnosisKeySize]
  simp [htm, htd, show n ≠ 0 by omega, show n ≠ 281 by omega, hmk,
    bind, Except.bind, hloop, List.range_eq_range']


theorem window4 (buf : List Byte) (s : Nat) (h : s + 4 ≤ buf.length) :
    (buf.drop s).take 4
      = [buf.getD s 0, buf.getD (s + 1) 0, buf.getD (s + 2) 0, buf.getD (s + 3) 0] := by
  apply List.ext_getElem
  · simp only [List.length_take, List.length_drop, List.length_cons, List.length_nil]; omega
  · intro m h1 h2
    have hm : m < 4 := by simpa using h2
    have hlt : s + m < buf.length := by omega
    simp only [List.getElem_take, List.getElem_drop]
    interval_cases m <;> simp [List.getD_eq_getElem?_getD, List.getElem?_eq_getElem, hlt,
      show s < buf.length by omega, show s + 1 < buf.length by omega,
      show s + 2 < buf.length by omega, show s + 3 < buf.length by omega]

theorem bufferAfter_length (w : List Byte) : (bufferAfter w).length = 281 := by
  simp only [bufferAfter, copy, makeBytes, UploadLimit, MaxUploadBatchSize, DiagnosisKeySize,
    List.length_append, List.length_take, List.length_drop, List.length_replicate]
  omega

theorem ParseDiagnosisKeys_eq {κ σ ρ : Type} (s : Service κ σ) (r : Reader ρ) (st st' : ρ)
    (w : List Byte) (n : Int) (err : Option GoError)
    (hread : r.Read st (makeBytes (UploadLimit + 1)) = (st', w, n, err)) :
    s.ParseDiagnosisKeys r st = (st', ParseDiagnosisKeys.afterRead (bufferAfter w) n err) := by
  simp [Service.ParseDiagnosisKeys, hread, bufferAfter]

theorem encodeKey_length (k : DiagnosisKey) : (encodeKey k).length = 20 := by
  simp [encodeKey, PutUint32, k.TemporaryExposureKey.property]

theorem encodeKeys_length (ks : List DiagnosisKey) : (encodeKeys ks).length = 20 * ks.length := by
  induction ks with
  | nil => rfl
  | cons k ks ih =>
    simp only [encodeKeys, List.length_append, encodeKey_length, ih, List.length_cons]
    omega

theorem be32_PutUint32 (v : Nat) (hv : v < 2 ^ 32) :
    be32 ((PutUint32 v).getD 0 0) ((PutUint32 v).getD 1 0) ((PutUint32 v).getD 2 0)
      ((PutUint32 v).getD 3 0) = v := by
  simp only [PutUint32, be32, List.getD_cons_zero, List.getD_cons_succ,
    Nat.shiftRight_eq_div_pow]
  omega

theorem decodeRecord_encodeKey (k : DiagnosisKey) (hv : k.ENIntervalNumber < 2 ^ 32) :
    decodeRecord (encodeKey k) = k := by
  obtain ⟨⟨tok, htok⟩, v⟩ := k
  have hp : (PutUint32 v).length = 4 := rfl
  have hg : ∀ m, m < 4 → (tok ++ PutUint32 v).getD (16 + m) 0 = (PutUint32 v).getD m 0 := by
    intro m _
    simp only [List.getD_eq_getElem?_getD]
    rw [List.getElem?_append_right (by omega)]
    simp [htok]
  have h16 := hg 0 (by omega)
  have h17 := hg 1 (by omega)
  have h18 := hg 2 (by omega)
  have h19 := hg 3 (by omega)
  simp only [Nat.reduceAdd] at h16 h17 h18 h19
  simp only [decodeRecord, encodeKey, h16, h17, h18, h19, be32_PutUint32 v hv]
  congr 1
  apply Subtype.ext
  rw [copyFrom_val _ (by simp [htok])]
  simp [List.take_append_of_le_length, htok]

theorem recordAt_append_zero (rec rest : List Byte) (h : rec.length = 20) :
    recordAt (rec ++ rest) 0 = decodeRecord rec := by
  simp [recordAt, List.take_append_of_le_length, h]

theorem recordAt_append_succ (rec rest : List Byte) (j : Nat) (h : rec.length = 20) :
    recordAt (rec ++ rest) (j + 1) = recordAt rest j := by
  have : (j + 1) * 20 = rec.length + j * 20 := by omega
  simp only [recordAt, this, List.drop_append]

theorem map_recordAt_encodeKeys (ks : List DiagnosisKey) (tail : List Byte)
    (hv : ∀ k ∈ ks, k.ENIntervalNumber < 2 ^ 32) :
    (List.range ks.length).map (recordAt (encodeKeys ks ++ tail)) = ks := by
  induction ks with
  | nil => rfl
  | cons k ks ih =>
    have hk := encodeKey_length k
    rw [List.length_cons, List.range_succ_eq_map, List.map_cons, List.map_map]
    simp only [encodeKeys, List.append_assoc]
    rw [recordAt_append_zero _ _ hk, decodeRecord_encodeKey k (hv k (List.mem_cons_self _ _))]
    congr 1
    have hfun : (recordAt (encodeKey k ++ (encodeKeys ks ++ tail)) ∘ Nat.succ)
        = recordAt (encodeKeys ks ++ tail) := by
      funext j
      exact recordAt_append_succ _ _ j hk
    rw [hfun]
    exact ih (fun k' hk' => hv k' (List.mem_cons_of_mem _ hk'))

/-! ## Facts about the postgres repository -/

theorem loop_out_of_range (buf : List Byte) :
    ∀ (left i : Nat) (ks : List DiagnosisKey), ks.length = i + left →
      i * 20 ≤ buf.length → buf.length < (i + left) * 20 →
      ParseDiagnosisKeys.loop buf left i ks = .error Panic.sliceBoundsOutOfRange := by
  intro left
  induction left with
  | zero =>
    intro i ks _ h1 h2
    omega
  | succ left ih =>
    intro i ks hk h1 h2
    by_cases hfit : (i + 1) * 20 ≤ buf.length
    · have hs1 : sliceExpr buf (i * DiagnosisKeySize) (i * DiagnosisKeySize + 16)
          = .ok ((buf.drop (i * 20)).take 16) := by
        unfold sliceExpr DiagnosisKeySize
        rw [if_pos (by omega)]
        simp
      have hs2 : sliceExpr buf (i * DiagnosisKeySize + 16)
          (i * DiagnosisKeySize + DiagnosisKeySize)
          = .ok ((buf.drop (i * 20 + 16)).take 4) := by
        unfold sliceExpr DiagnosisKeySize
        rw [if_pos (by omega)]
        simp
      have hset : ∀ v, setIndex ks i v = .ok (ks.set i v) := by
        intro v
        unfold setIndex
        rw [if_pos (by omega)]
      have hu := uint32_window buf (i * 20 + 16) (by omega)
      simp only [ParseDiagnosisKeys.loop, hs1, hs2, hu, hset, bind, Except.bind]
      exact ih (i + 1) _ (by simp; omega) hfit (by omega)
    · by_cases h16 : i * 20 + 16 ≤ buf.length
      · have hs1 : sliceExpr buf (i * DiagnosisKeySize) (i * DiagnosisKeySize + 16)
            = .ok ((buf.drop (i * 20)).take 16) := by
          unfold sliceExpr DiagnosisKeySize
          rw [if_pos (by omega)]
          simp
        have hs2 : sliceExpr buf (i * DiagnosisKeySize + 16)
            (i * DiagnosisKeySize + DiagnosisKeySize)
            = .error Panic.sliceBoundsOutOfRange := by
          unfold sliceExpr DiagnosisKeySize
          rw [if_neg (by omega)]
        simp only [ParseDiagnosisKeys.loop, hs1, hs2, bind, Except.bind]
      · have hs1 : sliceExpr buf (i * DiagnosisKeySize) (i * DiagnosisKeySize + 16)
            = .error Panic.sliceBoundsOutOfRange := by
          unfold sliceExpr DiagnosisKeySize
          rw [if_neg (by omega)]
        simp only [ParseDiagnosisKeys.loop, hs1, bind, Except.bind]

theorem afterRead_hard (buf : List Byte) (n : Int) (e : GoError) (he : e ≠ GoError.EOF) :
    ParseDiagnosisKeys.afterRead buf n (some e) = .ok (none, some e) := by
  simp [ParseDiagnosisKeys.afterRead, he]

theorem afterRead_zero (buf : List Byte) :
    ParseDiagnosisKeys.afterRead buf 0 none = .ok (none, some GoError.ErrUnexpectedEOF) := by
  simp [ParseDiagnosisKeys.afterRead]

theorem afterRead_limit (buf : List Byte) :
    ParseDiagnosisKeys.afterRead buf 281 none
      = .ok (none, some GoError.ErrMaxUploadExceeded) := by
  simp [ParseDiagnosisKeys.afterRead, UploadLimit, MaxUploadBatchSize, DiagnosisKeySize]

theorem afterRead_unaligned (buf : List Byte) (n : Int) (h0 : n ≠ 0) (h1 : n ≠ 281)
    (hm : n.tmod 20 ≠ 0) :
    ParseDiagnosisKeys.afterRead buf n none = .ok (none, some GoError.ErrUnexpectedEOF) := by
  simp [ParseDiagnosisKeys.afterRead, UploadLimit, MaxUploadBatchSize, DiagnosisKeySize, h0, h1,
    hm]

theorem afterRead_negative (buf : List Byte) (n : Int) (hneg : n < 0) (hm : n.tmod 20 = 0) :
    ParseDiagnosisKeys.afterRead buf n none = .error Panic.makesliceLenOutOfRange := by
  have hdiv : n.tdiv 20 < 0 := by
    have := Int.tmod_add_tdiv n 20
    omega
  have hmk := makeKeys_out_of_range (n.tdiv 20) (Or.inl hdiv)
  simp [ParseDiagnosisKeys.afterRead, UploadLimit, MaxUploadBatchSize, DiagnosisKeySize,
    show n ≠ 0 by omega, show n ≠ 281 by omega, hm, hmk, bind, Except.bind]

theorem afterRead_beyond (buf : List Byte) (n : Int) (hbuf : buf.length = 281)
    (hbig : 281 < n) (hm : n.tmod 20 = 0) :
    ParseDiagnosisKeys.afterRead buf n none
      = .error (if n ≤ 281474976710656 then Panic.sliceBoundsOutOfRange
          else Panic.makesliceLenOutOfRange) := by
  have hmod : n % 20 = 0 := by rw [← Int.tmod_eq_emod (by omega) (by omega)]; exact hm
  have htd : n.tdiv 20 = n / 20 := Int.tdiv_eq_ediv (by omega) (by omega)
  by_cases hfit : n ≤ 281474976710656
  · have hloop := loop_out_of_range buf (n / 20).toNat 0
      (List.replicate (n / 20).toNat DiagnosisKey.zero) (by simp) (by omega) (by omega)
    have hmk := makeKeys_ok (n / 20) (by omega) (by omega)
    simp [ParseDiagnosisKeys.afterRead, UploadLimit, MaxUploadBatchSize, DiagnosisKeySize,
      show n ≠ 0 by omega, show n ≠ 281 by omega, hm, htd, hmk, bind, Except.bind, hloop,
      hfit]
  · have hmk := makeKeys_out_of_range (n / 20) (Or.inr (by omega))
    simp [ParseDiagnosisKeys.afterRead, UploadLimit, MaxUploadBatchSize, DiagnosisKeySize,
      show n ≠ 0 by omega, show n ≠ 281 by omega, hm, htd, hmk, bind, Except.bind, hfit]

theorem recordAt_take (buf : List Byte) (m j : Nat) (h : (j + 1) * 20 ≤ m) :
    recordAt (buf.take m) j = recordAt buf j := by
  unfold recordAt
  rw [List.drop_take, List.take_take, Nat.min_eq_left (by omega)]

theorem map_recordAt_congr (buf buf' : List Byte) (m k : Nat) (hk : k * 20 ≤ m)
    (h : buf.take m = buf'.take m) :
    (List.range k).map (recordAt buf) = (List.range k).map (recordAt buf') := by
  apply List.map_congr_left
  intro j hj
  have hj' : (j + 1) * 20 ≤ m := by
    have := List.mem_range.mp hj
    omega
  rw [← recordAt_take buf m j hj', ← recordAt_take buf' m j hj', h]

theorem afterRead_congr (buf buf' : List Byte) (n : Int) (err : Option GoError)
    (hbuf : buf.length = 281) (hbuf' : buf'.length = 281)
    (h : buf.take n.toNat = buf'.take n.toNat) :
    ParseDiagnosisKeys.afterRead buf n err = ParseDiagnosisKeys.afterRead buf' n err := by
  by_cases hsoft : err = none ∨ err = some GoError.EOF
  · rw [afterRead_soft buf n err hsoft, afterRead_soft buf' n err hsoft]
    by_cases h0 : n = 0
    · subst h0; rw [afterRead_zero, afterRead_zero]
    by_cases h1 : n = 281
    · subst h1; rw [afterRead_limit, afterRead_limit]
    by_cases hm : n.tmod 20 = 0
    · rcases Int.lt_or_le n 0 with hneg | hnn
      · rw [afterRead_negative buf n hneg hm, afterRead_negative buf' n hneg hm]
      · rcases Int.lt_or_le 281 n with hbig | hsmall
        · rw [afterRead_beyond buf n hbuf hbig hm, afterRead_beyond buf' n hbuf' hbig hm]
        · have hmod : n % 20 = 0 := by
            rw [← Int.tmod_eq_emod (by omega) (by omega)]; exact hm
          rw [afterRead_valid buf n none (Or.inl rfl) (by omega) hmod (by omega) (by omega),
            afterRead_valid buf' n none (Or.inl rfl) (by omega) hmod (by omega) (by omega),
            map_recordAt_congr buf buf' n.toNat (n / 20).toNat (by omega) h]
    · rw [afterRead_unaligned buf n h0 h1 hm, afterRead_unaligned buf' n h0 h1 hm]
  · have hne : err ≠ none := fun hc => hsoft (Or.inl hc)
    obtain ⟨e, rfl⟩ := Option.ne_none_iff_exists'.mp hne
    have he : e ≠ GoError.EOF := fun hc => hsoft (Or.inr (by rw [hc]))
    rw [afterRead_hard buf n e he, afterRead_hard buf' n e he]

theorem afterRead_success (buf : List Byte) (n : Int) (err : Option GoError)
    (ks : Option (List DiagnosisKey)) (hbuf : buf.length = 281)
    (h : ParseDiagnosisKeys.afterRead buf n err = .ok (ks, none)) :
    (err = none ∨ err = some GoError.EOF) ∧ 0 < n ∧ n ≤ 280 ∧ n % 20 = 0 := by
  by_cases hsoft : err = none ∨ err = some GoError.EOF
  · refine ⟨hsoft, ?_⟩
    rw [afterRead_soft buf n err hsoft] at h
    by_cases h0 : n = 0
    · subst h0; rw [afterRead_zero] at h; simp at h
    by_cases h1 : n = 281
    · subst h1; rw [afterRead_limit] at h; simp at h
    by_cases hm : n.tmod 20 = 0
    · rcases Int.lt_or_le n 0 with hneg | hnn
      · rw [afterRead_negative buf n hneg hm] at h; simp at h
      · rcases Int.lt_or_le 281 n with hbig | hsmall
        · rw [afterRead_beyond buf n hbuf hbig hm] at h; simp at h
        · have hmod : n % 20 = 0 := by
            rw [← Int.tmod_eq_emod (by omega) (by omega)]; exact hm
          omega
    · rw [afterRead_unaligned buf n h0 h1 hm] at h; simp at h
  · have hne : err ≠ none := fun hc => hsoft (Or.inl hc)
    obtain ⟨e, rfl⟩ := Option.ne_none_iff_exists'.mp hne
    have he : e ≠ GoError.EOF := fun hc => hsoft (Or.inr (by rw [hc]))
    rw [afterRead_hard buf n e he] at h
    simp at h

theorem afterRead_contract (buf : List Byte) (n : Int) (err : Option GoError)
    (hbuf : buf.length = 281) (h0 : 0 ≤ n) (h1 : n ≤ 281) :
    (∃ e : GoError, ParseDiagnosisKeys.afterRead buf n err = .ok (none, some e)) ∨
    ((err = none ∨ err = some GoError.EOF) ∧ 0 < n ∧ n ≤ 280 ∧ n % 20 = 0 ∧
      ParseDiagnosisKeys.afterRead buf n err
        = .ok (some ((List.range (n / 20).toNat).map (recordAt buf)), none)) := by
  by_cases hsoft : err = none ∨ err = some GoError.EOF
  · by_cases hn0 : n = 0
    · left
      rw [afterRead_soft buf n err hsoft, hn0, afterRead_zero]
      exact ⟨_, rfl⟩
    by_cases hn1 : n = 281
    · left
      rw [afterRead_soft buf n err hsoft, hn1, afterRead_limit]
      exact ⟨_, rfl⟩
    by_cases hm : n % 20 = 0
    · right
      exact ⟨hsoft, by omega, by omega, hm,
        afterRead_valid buf n err hsoft (by omega) hm (by omega) (by omega)⟩
    · left
      have htm : n.tmod 20 ≠ 0 := by rw [Int.tmod_eq_emod (by omega) (by omega)]; exact hm
      rw [afterRead_soft buf n err hsoft, afterRead_unaligned buf n hn0 hn1 htm]
      exact ⟨_, rfl⟩
  · left
    have hne : err ≠ none := fun hc => hsoft (Or.inl hc)
    obtain ⟨e, rfl⟩ := Option.ne_none_iff_exists'.mp hne
    have he : e ≠ GoError.EOF := fun hc => hsoft (Or.inr (by rw [hc]))
    exact ⟨e, afterRead_hard buf n e he⟩

theorem loopLog_eq (buf : List Byte) :
    ∀ (left i : Nat) (ks : List DiagnosisKey) (log : List LoopEntry), ks.length = i + left →
      (i + left) * 20 ≤ buf.length →
      ParseDiagnosisKeys.loopLog buf left i ks log
        = .ok (ks.take i ++ (List.range' i left).map (recordAt buf),
            log ++ (List.range' i left).map loopEntry) := by
  intro left
  induction left with
  | zero =>
    intro i ks log hk _
    simp [ParseDiagnosisKeys.loopLog, List.take_of_length_le (show ks.length ≤ i by omega)]
  | succ left ih =>
    intro i ks log hk hb
    have hs1 : sliceExpr buf (i * DiagnosisKeySize) (i * DiagnosisKeySize + 16)
        = .ok ((buf.drop (i * 20)).take 16) := by
      unfold sliceExpr DiagnosisKeySize
      rw [if_pos (by omega)]
      simp
    have hs2 : sliceExpr buf (i * DiagnosisKeySize + 16) (i * DiagnosisKeySize + DiagnosisKeySize)
        = .ok ((buf.drop (i * 20 + 16)).take 4) := by
      unfold sliceExpr DiagnosisKeySize
      rw [if_pos (by omega)]
      simp
    have hset : ∀ v, setIndex ks i v = .ok (ks.set i v) := by
      intro v
      unfold setIndex
      rw [if_pos (by omega)]
    have hu := uint32_window buf (i * 20 + 16) (by omega)
    simp only [ParseDiagnosisKeys.loopLog, hs1, hs2, hu, hset, bind, Except.bind]
    rw [ih (i + 1) _ _ (by simp; omega) (by omega)]
    congr 2
    · rw [List.range'_succ, List.map_cons, List.take_succ]
      rw [recordAt_eq]
      simp [List.getElem?_set, show i < ks.length by omega]
      rw [List.set_take, List.set_eq_of_length_le (by simp)]
    · rw [List.range'_succ, List.map_cons, List.append_assoc]
      rfl

theorem loopLog_fst (buf : List Byte) :
    ∀ (left i : Nat) (ks : List DiagnosisKey) (log : List LoopEntry),
      Except.map Prod.fst (ParseDiagnosisKeys.loopLog buf left i ks log)
        = ParseDiagnosisKeys.loop buf left i ks := by
  intro left
  induction left with
  | zero => intro i ks log; rfl
  | succ left ih =>
    intro i ks log
    simp only [ParseDiagnosisKeys.loopLog, ParseDiagnosisKeys.loop, bind, Except.bind]
    cases sliceExpr buf (i * DiagnosisKeySize) (i * DiagnosisKeySize + 16) with
    | error p => rfl
    | ok src =>
      dsimp only
      cases sliceExpr buf (i * DiagnosisKeySize + 16)
          (i * DiagnosisKeySize + DiagnosisKeySize) with
      | error p => rfl
      | ok b =>
        dsimp only
        cases BigEndian.Uint32 b with
        | error p => rfl
        | ok enin =>
          dsimp only
          cases setIndex ks i ⟨Array16.copyFrom src, enin⟩ with
          | error p => rfl
          | ok ks' => exact ih (i + 1) ks' _

theorem afterReadLog_fst (buf : List Byte) (n : Int) (err : Option GoError) :
    Except.map Prod.fst (ParseDiagnosisKeys.afterReadLog buf n err)
      = ParseDiagnosisKeys.afterRead buf n err := by
  unfold ParseDiagnosisKeys.afterReadLog ParseDiagnosisKeys.afterRead
  split
  · rfl
  split
  · rfl
  split
  · rfl
  split
  · rfl
  simp only [bind, Except.bind]
  cases makeKeys (n.tdiv (DiagnosisKeySize : Int)) with
  | error p => rfl
  | ok ks =>
    have h := loopLog_fst buf (n.tdiv (DiagnosisKeySize : Int)).toNat 0 ks []
    simp only []
    cases hl : ParseDiagnosisKeys.loopLog buf (n.tdiv (DiagnosisKeySize : Int)).toNat 0 ks [] with
    | error p =>
      rw [hl] at h
      rw [← h]
      rfl
    | ok out =>
      rw [hl] at h
      rw [← h]
      rfl

theorem afterReadLog_contract (buf : List Byte) (n : Int) (err : Option GoError)
    (hbuf : buf.length = 281) (h0 : 0 ≤ n) (h1 : n ≤ 281) :
    (∃ e : GoError, ParseDiagnosisKeys.afterReadLog buf n err = .ok ((none, some e), [])) ∨
    ((err = none ∨ err = some GoError.EOF) ∧ 0 < n ∧ n ≤ 280 ∧ n % 20 = 0 ∧
      ParseDiagnosisKeys.afterReadLog buf n err
        = .ok ((some ((List.range (n / 20).toNat).map (recordAt buf)), none),
            (List.range (n / 20).toNat).map loopEntry)) := by
  by_cases hsoft : err = none ∨ err = some GoError.EOF
  · have hcond : ¬ (err ≠ none ∧ err ≠ some GoError.EOF) := by
      rcases hsoft with h | h <;> simp [h]
    by_cases hn0 : n = 0
    · left
      exact ⟨GoError.ErrUnexpectedEOF, by simp [ParseDiagnosisKeys.afterReadLog, hcond, hn0]⟩
    by_cases hn1 : n = 281
    · left
      exact ⟨GoError.ErrMaxUploadExceeded, by
        simp [ParseDiagnosisKeys.afterReadLog, hcond, hn1, UploadLimit, MaxUploadBatchSize,
          DiagnosisKeySize]⟩
    by_cases hm : n % 20 = 0
    · right
      refine ⟨hsoft, by omega, by omega, hm, ?_⟩
      have htm : n.tmod 20 = 0 := by rw [Int.tmod_eq_emod (by omega) (by omega)]; exact hm
      have htd : n.tdiv 20 = n / 20 := Int.tdiv_eq_ediv (by omega) (by omega)
      have hmk := makeKeys_ok (n / 20) (by omega) (by omega)
      have hloop := loopLog_eq buf (n / 20).toNat 0
        (List.replicate (n / 20).toNat DiagnosisKey.zero) [] (by simp) (by omega)
      simp only [ParseDiagnosisKeys.afterReadLog, UploadLimit, MaxUploadBatchSize,
        DiagnosisKeySize]
      simp [hcond, htm, htd, hn0, hn1, hmk, bind, Except.bind, hloop, List.range_eq_range']
    · left
      have htm : n.tmod 20 ≠ 0 := by rw [Int.tmod_eq_emod (by omega) (by omega)]; exact hm
      exact ⟨GoError.ErrUnexpectedEOF, by
        simp [ParseDiagnosisKeys.afterReadLog, hcond, hn0, hn1, htm, UploadLimit,
          MaxUploadBatchSize, DiagnosisKeySize]⟩
  · left
    have hne : err ≠ none := fun hc => hsoft (Or.inl hc)
    obtain ⟨e, rfl⟩ := Option.ne_none_iff_exists'.mp hne
    have he : e ≠ GoError.EOF := fun hc => hsoft (Or.inr (by rw [hc]))
    exact ⟨e, by simp [ParseDiagnosisKeys.afterReadLog, he]⟩

theorem PutUint32_be32 (a b c d : Byte) : PutUint32 (be32 a b c d) = [a, b, c, d] := by
  have ha := a.isLt
  have hb := b.isLt
  have hc := c.isLt
  have hd := d.isLt
  simp only [PutUint32, be32, Nat.shiftRight_eq_div_pow, List.cons.injEq, and_true]
  refine ⟨?_, ?_, ?_, ?_⟩ <;> apply Fin.ext <;> simp only [] <;> omega

theorem encodeKey_decodeRecord (rec : List Byte) (h : rec.length = 20) :
    encodeKey (decodeRecord rec) = rec := by
  have hw := window4 rec 16 (by omega)
  have hfull : (rec.drop 16).take 4 = rec.drop 16 :=
    List.take_of_length_le (by simp only [List.length_drop]; omega)
  unfold encodeKey decodeRecord
  rw [PutUint32_be32]
  simp only []
  rw [copyFrom_val _ (by simp only [List.length_take]; omega)]
  have h4 : [rec.getD 16 0, rec.getD 17 0, rec.getD 18 0, rec.getD 19 0] = rec.drop 16 := by
    rw [← hfull, hw]
  rw [h4, List.take_append_drop]

theorem encodeKeys_append (xs ys : List DiagnosisKey) :
    encodeKeys (xs ++ ys) = encodeKeys xs ++ encodeKeys ys := by
  induction xs with
  | nil => rfl
  | cons x xs ih =>
    show encodeKey x ++ encodeKeys (xs ++ ys) = encodeKey x ++ encodeKeys xs ++ encodeKeys ys
    rw [ih, List.append_assoc]

theorem encodeKeys_map_recordAt (buf : List Byte) :
    ∀ k : Nat, k * 20 ≤ buf.length →
      encodeKeys ((List.range k).map (recordAt buf)) = buf.take (k * 20) := by
  intro k
  induction k with
  | zero => intro _; simp [encodeKeys]
  | succ k ih =>
    intro hk
    rw [List.range_succ, List.map_append, encodeKeys_append, ih (by omega)]
    have hrec : ((buf.drop (k * 20)).take 20).length = 20 := by
      simp only [List.length_take, List.length_drop]; omega
    simp only [List.map_cons, List.map_nil, encodeKeys, List.append_nil, recordAt]
    rw [encodeKey_decodeRecord _ hrec, show (k + 1) * 20 = k * 20 + 20 by omega, List.take_add]

theorem ParseDiagnosisKeys_delivers {κ σ ρ : Type} (s : Service κ σ) (r : Reader ρ) (st : ρ)
    (b : List Byte) (hpos : 0 < b.length) (hmul : b.length % 20 = 0) (hle : b.length ≤ 280)
    (hd : r.delivers st b) :
    (s.ParseDiagnosisKeys r st).2
      = .ok (some ((List.range (b.length / 20)).map (recordAt b)), none) := by
  obtain ⟨hn, hdata, herr⟩ := hd
  rw [ParseDiagnosisKeys_eq s r st _ _ _ _ rfl, hn,
    afterRead_valid _ _ _ herr (by omega) (by omega) (by omega)
      (by rw [bufferAfter_length]; omega)]
  have hk : ((b.length : Int) / 20).toNat = b.length / 20 := by omega
  rw [hk, map_recordAt_congr _ b b.length (b.length / 20) (by omega)
    (by rw [hdata, List.take_length])]

theorem map_recordAt_append (a b : List Byte) (ka kb : Nat) (ha : a.length = ka * 20) :
    (List.range (ka + kb)).map (recordAt (a ++ b))
      = (List.range ka).map (recordAt a) ++ (List.range kb).map (recordAt b) := by
  rw [List.range_add, List.map_append, List.map_map]
  congr 1
  · apply List.map_congr_left
    intro j hj
    have hj' : (j + 1) * 20 ≤ a.length := by
      have := List.mem_range.mp hj
      rw [ha]
      exact Nat.mul_le_mul_right 20 this
    rw [← recordAt_take (a ++ b) a.length j hj', List.take_left']
    rfl
  · apply List.map_congr_left
    intro j _
    simp only [Function.comp_apply, recordAt]
    rw [show (ka + j) * 20 = a.length + j * 20 by rw [ha]; ring, List.drop_append]

/-! ## The claims -/

/-- C1: whenever the single `Read` of `ParseDiagnosisKeys` obtains `n` bytes, `n` a positive
multiple of 20 and at most 280, with a nil or `io.EOF` error, the function returns no error
and exactly `n / 20` keys in stream order: key `i` has the bytes `[20i, 20i+16)` of the
buffer as its `TemporaryExposureKey` and `b0*2^24 + b1*2^16 + b2*2^8 + b3` as its
`ENIntervalNumber`, for the bytes `b0..b3` at `[20i+16, 20i+20)`. -/
theorem ParseDiagnosisKeys_valid_batch {κ σ ρ : Type} (s : Service κ σ) (r : Reader ρ)
    (st st' : ρ) (w : List Byte) (n : Int) (err : Option GoError)
    (hread : r.Read st (makeBytes (UploadLimit + 1)) = (st', w, n, err))
    (herr : err = none ∨ err = some GoError.EOF)
    (hpos : 0 < n) (hmul : n % 20 = 0) (hle : n ≤ 280) :
    ∃ keys : List DiagnosisKey,
      (s.ParseDiagnosisKeys r st).2 = .ok (some keys, none) ∧
      (keys.length : Int) = n / 20 ∧
      ∀ i : Nat, (i : Int) < n / 20 →
        ∃ (k : DiagnosisKey) (b0 b1 b2 b3 : Byte),
          keys[i]? = some k ∧
          k.TemporaryExposureKey.val = ((bufferAfter w).drop (20 * i)).take 16 ∧
          ((bufferAfter w).drop (20 * i + 16)).take 4 = [b0, b1, b2, b3] ∧
          k.ENIntervalNumber
            = b0.val * 2 ^ 24 + b1.val * 2 ^ 16 + b2.val * 2 ^ 8 + b3.val := by
  have hlen := bufferAfter_length w
  refine ⟨(List.range (n / 20).toNat).map (recordAt (bufferAfter w)), ?_, ?_, ?_⟩
  · rw [ParseDiagnosisKeys_eq s r st st' w n err hread]
    exact afterRead_valid _ n err herr hpos hmul hle (by omega)
  · simp only [List.length_map, List.length_range]
    omega
  · intro i hi
    have hi' : i < (n / 20).toNat := by omega
    have hb : i * 20 + 20 ≤ (bufferAfter w).length := by omega
    refine ⟨recordAt (bufferAfter w) i, (bufferAfter w).getD (i * 20 + 16) 0,
      (bufferAfter w).getD (i * 20 + 16 + 1) 0, (bufferAfter w).getD (i * 20 + 16 + 2) 0,
      (bufferAfter w).getD (i * 20 + 16 + 3) 0, ?_, ?_, ?_, ?_⟩
    · simp [List.getElem?_map, List.getElem?_range, hi']
    · rw [Nat.mul_comm 20 i]
      exact recordAt_token _ i (by omega)
    · rw [Nat.mul_comm 20 i]
      exact window4 _ _ (by omega)
    · rw [recordAt_eq]
      rfl

set_option maxRecDepth 100000 in
/-- Witness of C1: the two-record stream of the test key, read through a `bytes.Reader`. -/
theorem ParseDiagnosisKeys_valid_batch_witness :
    ∃ keys : List DiagnosisKey,
      ((NewService (Postgres.Client Unit)).ParseDiagnosisKeys BytesReader
        (encodeKeys [testKey, testKey])).2 = .ok (some keys, none) ∧
      (keys.length : Int) = (40 : Int) / 20 ∧
      ∀ i : Nat, (i : Int) < (40 : Int) / 20 →
        ∃ (k : DiagnosisKey) (b0 b1 b2 b3 : Byte),
          keys[i]? = some k ∧
          k.TemporaryExposureKey.val
            = ((bufferAfter (encodeKeys [testKey, testKey])).drop (20 * i)).take 16 ∧
          ((bufferAfter (encodeKeys [testKey, testKey])).drop (20 * i + 16)).take 4
            = [b0, b1, b2, b3] ∧
          k.ENIntervalNumber
            = b0.val * 2 ^ 24 + b1.val * 2 ^ 16 + b2.val * 2 ^ 8 + b3.val :=
  ParseDiagnosisKeys_valid_batch (NewService (Postgres.Client Unit)) BytesReader
    (encodeKeys [testKey, testKey]) [] (encodeKeys [testKey, testKey]) 40 none
    (by decide) (Or.inl rfl) (by decide) (by decide) (by decide)

/-- C2: round trip. For every list of 1 to 14 keys (in particular a single key), whose
interval numbers are `uint32` values, when the single `Read` delivers the whole encoding of
the list (each key as its 16 token bytes followed by the 4-byte big-endian interval number,
concatenated) with a nil or `io.EOF` error, `ParseDiagnosisKeys` returns, with no error, a
list equal to the original. -/
theorem ParseDiagnosisKeys_round_trip {κ σ ρ : Type} (s : Service κ σ) (r : Reader ρ)
    (st st' : ρ) (w : List Byte) (err : Option GoError) (keys : List DiagnosisKey)
    (hlo : 1 ≤ keys.length) (hhi : keys.length ≤ 14)
    (hu32 : ∀ k ∈ keys, k.ENIntervalNumber < 2 ^ 32)
    (hread : r.Read st (makeBytes (UploadLimit + 1))
      = (st', w, ((encodeKeys keys).length : Int), err))
    (hdata : (bufferAfter w).take (encodeKeys keys).length = encodeKeys keys)
    (herr : err = none ∨ err = some GoError.EOF) :
    (s.ParseDiagnosisKeys r st).2 = .ok (some keys, none) := by
  have hlen := bufferAfter_length w
  have hel := encodeKeys_length keys
  rw [ParseDiagnosisKeys_eq s r st st' w _ err hread]
  rw [afterRead_valid _ _ err herr (by omega) (by omega) (by omega) (by omega)]
  have hcount : (((encodeKeys keys).length : Int) / 20).toNat = keys.length := by omega
  have hsplit : bufferAfter w
      = encodeKeys keys ++ (bufferAfter w).drop (encodeKeys keys).length := by
    conv_lhs => rw [← List.take_append_drop (encodeKeys keys).length (bufferAfter w), hdata]
  rw [hcount, hsplit, map_recordAt_encodeKeys keys _ hu32]

set_option maxRecDepth 100000 in
/-- Witness of C2: the key of the repository test, twice, read through a `bytes.Reader`. -/
theorem ParseDiagnosisKeys_round_trip_witness :
    ((NewService (Postgres.Client Unit)).ParseDiagnosisKeys BytesReader
      (encodeKeys [testKey, testKey])).2 = .ok (some [testKey, testKey], none) :=
  ParseDiagnosisKeys_round_trip (NewService (Postgres.Client Unit)) BytesReader
    (encodeKeys [testKey, testKey]) [] (encodeKeys [testKey, testKey]) none [testKey, testKey]
    (by decide) (by decide) (by decide) (by decide) (by decide) (Or.inl rfl)

/-- C3: whenever the single `Read` obtains 281 bytes (`UploadLimit + 1`, which a stream of
281 bytes or more delivered in full gives) with a nil or `io.EOF` error,
`ParseDiagnosisKeys` fails with `ErrMaxUploadExceeded` and returns no keys. -/
theorem ParseDiagnosisKeys_too_large {κ σ ρ : Type} (s : Service κ σ) (r : Reader ρ)
    (st st' : ρ) (w : List Byte) (n : Int) (err : Option GoError)
    (hread : r.Read st (makeBytes (UploadLimit + 1)) = (st', w, n, err))
    (herr : err = none ∨ err = some GoError.EOF) (hn : n = 281) :
    (s.ParseDiagnosisKeys r st).2 = .ok (none, some GoError.ErrMaxUploadExceeded) := by
  rw [ParseDiagnosisKeys_eq s r st st' w n err hread, afterRead_soft _ n err herr, hn]
  simp [ParseDiagnosisKeys.afterRead, UploadLimit, MaxUploadBatchSize, DiagnosisKeySize]

set_option maxRecDepth 100000 in
/-- Witness of C3: a stream of 300 bytes read through a `bytes.Reader`. -/
theorem ParseDiagnosisKeys_too_large_witness :
    ((NewService (Postgres.Client Unit)).ParseDiagnosisKeys BytesReader
      (List.replicate 300 1)).2 = .ok (none, some GoError.ErrMaxUploadExceeded) :=
  ParseDiagnosisKeys_too_large (NewService (Postgres.Client Unit)) BytesReader
    (List.replicate 300 1) (List.replicate 19 1) (List.replicate 281 1) 281 none
    (by decide) (Or.inl rfl) rfl

/-- C4: whenever the single `Read` obtains `n` bytes with `0 < n <= 280`, `n` not a
multiple of 20, and a nil or `io.EOF` error, `ParseDiagnosisKeys` fails with
`io.ErrUnexpectedEOF` and returns no keys: the partial trailing record is neither accepted
nor dropped. -/
theorem ParseDiagnosisKeys_truncated {κ σ ρ : Type} (s : Service κ σ) (r : Reader ρ)
    (st st' : ρ) (w : List Byte) (n : Int) (err : Option GoError)
    (hread : r.Read st (makeBytes (UploadLimit + 1)) = (st', w, n, err))
    (herr : err = none ∨ err = some GoError.EOF)
    (hpos : 0 < n) (hle : n ≤ 280) (hmul : n % 20 ≠ 0) :
    (s.ParseDiagnosisKeys r st).2 = .ok (none, some GoError.ErrUnexpectedEOF) := by
  rw [ParseDiagnosisKeys_eq s r st st' w n err hread, afterRead_soft _ n err herr]
  have htm : n.tmod 20 ≠ 0 := by rw [Int.tmod_eq_emod (by omega) (by omega)]; exact hmul
  simp [ParseDiagnosisKeys.afterRead, UploadLimit, MaxUploadBatchSize, DiagnosisKeySize, htm,
    show n ≠ 0 by omega, show n ≠ 281 by omega]

set_option maxRecDepth 100000 in
/-- Witness of C4: a stream of 21 bytes read through a `bytes.Reader`. -/
theorem ParseDiagnosisKeys_truncated_witness :
    ((NewService (Postgres.Client Unit)).ParseDiagnosisKeys BytesReader
      (List.replicate 21 1)).2 = .ok (none, some GoError.ErrUnexpectedEOF) :=
  ParseDiagnosisKeys_truncated (NewService (Postgres.Client Unit)) BytesReader
    (List.replicate 21 1) [] (List.replicate 21 1) 21 none
    (by decide) (Or.inl rfl) (by decide) (by decide) (by decide)

/-- C5: whenever the single `Read` obtains 0 bytes with a nil or `io.EOF` error,
`ParseDiagnosisKeys` fails with `io.ErrUnexpectedEOF`, the error of a truncated record, and
returns no keys. -/
theorem ParseDiagnosisKeys_empty {κ σ ρ : Type} (s : Service κ σ) (r : Reader ρ)
    (st st' : ρ) (w : List Byte) (n : Int) (err : Option GoError)
    (hread : r.Read st (makeBytes (UploadLimit + 1)) = (st', w, n, err))
    (herr : err = none ∨ err = some GoError.EOF) (hn : n = 0) :
    (s.ParseDiagnosisKeys r st).2 = .ok (none, some GoError.ErrUnexpectedEOF) := by
  rw [ParseDiagnosisKeys_eq s r st st' w n err hread, afterRead_soft _ n err herr, hn]
  simp [ParseDiagnosisKeys.afterRead]

set_option maxRecDepth 100000 in
/-- Witness of C5: the empty stream read through a `bytes.Reader`, which answers
`0, io.EOF`. -/
theorem ParseDiagnosisKeys_empty_witness :
    ((NewService (Postgres.Client Unit)).ParseDiagnosisKeys BytesReader []).2
      = .ok (none, some GoError.ErrUnexpectedEOF) :=
  ParseDiagnosisKeys_empty (NewService (Postgres.Client Unit)) BytesReader
    [] [] [] 0 (some GoError.EOF) (by decide) (Or.inr rfl) rfl

/-- C6: whenever the error `e` of the single `Read` is neither nil nor `io.EOF`,
`ParseDiagnosisKeys` returns exactly `e` and no keys, whatever byte count `n` comes with it
(every `n` from 0 to 281 included: 0, 281 and the multiples of 20). -/
theorem ParseDiagnosisKeys_read_error {κ σ ρ : Type} (s : Service κ σ) (r : Reader ρ)
    (st st' : ρ) (w : List Byte) (n : Int) (e : GoError)
    (hread : r.Read st (makeBytes (UploadLimit + 1)) = (st', w, n, some e))
    (he : e ≠ GoError.EOF) :
    (s.ParseDiagnosisKeys r st).2 = .ok (none, some e) := by
  rw [ParseDiagnosisKeys_eq s r st st' w n (some e) hread]
  simp [ParseDiagnosisKeys.afterRead, he]

set_option maxRecDepth 100000 in
/-- Witness of C6: a reader that fails with another error after storing a whole record. -/
theorem ParseDiagnosisKeys_read_error_witness :
    ((NewService (Postgres.Client Unit)).ParseDiagnosisKeys (FailingReader 20 (GoError.other 7))
      (encodeKey testKey)).2 = .ok (none, some (GoError.other 7)) :=
  ParseDiagnosisKeys_read_error (NewService (Postgres.Client Unit))
    (FailingReader 20 (GoError.other 7)) (encodeKey testKey) (encodeKey testKey)
    (encodeKey testKey) 20 (GoError.other 7) (by decide) (by decide)

/-- Counterexample to C7: the service has no guard of its own. On the in-memory
repository, which accepts every batch, storing the nil batch and storing the empty batch
both return a nil error, not `ErrNilDiagKeys`. -/
theorem StoreDiagnosisKeys_empty_batch_counterexample :
    ((NewService (MemoryRepo Unit)).StoreDiagnosisKeys () none []).2 = none ∧
    ((NewService (MemoryRepo Unit)).StoreDiagnosisKeys () (some []) []).2 = none ∧
    ((NewService (MemoryRepo Unit)).StoreDiagnosisKeys () none []).2
      ≠ some GoError.ErrNilDiagKeys := by
  decide

/-- C7, amended: for every repository whose `StoreDiagnosisKeys` rejects an empty (or nil)
batch with `ErrNilDiagKeys` and leaves its state unchanged, as the postgres client does,
`Service.StoreDiagnosisKeys` called with an empty (or nil) batch fails with
`ErrNilDiagKeys` and leaves the repository state unchanged; the service passes the batch
to the repository in one call and the guard is the repository's. -/
theorem StoreDiagnosisKeys_empty_batch {κ σ : Type} (repo : Repository κ σ) (ctx : κ)
    (batch : Option (List DiagnosisKey)) (st : σ) (log : List (RepoCall κ))
    (hb : len batch = 0)
    (hguard : ∀ (c : κ) (b : Option (List DiagnosisKey)) (s : σ), len b = 0 →
      repo.StoreDiagnosisKeys c b s = (s, some GoError.ErrNilDiagKeys)) :
    (NewService repo).StoreDiagnosisKeys ctx batch st = (st, some GoError.ErrNilDiagKeys) ∧
    (NewService repo.traced).StoreDiagnosisKeys ctx batch (st, log)
      = ((st, log ++ [RepoCall.store ctx batch]), some GoError.ErrNilDiagKeys) := by
  have h := hguard ctx batch st hb
  constructor
  · simpa [NewService, Service.StoreDiagnosisKeys] using h
  · simp [NewService, Service.StoreDiagnosisKeys, Repository.traced, h]

/-- Witness of the amended C7: the postgres client holding one key, given the nil batch. -/
theorem StoreDiagnosisKeys_empty_batch_witness :
    (NewService (Postgres.Client Unit)).StoreDiagnosisKeys () none [testKey]
      = ([testKey], some GoError.ErrNilDiagKeys) ∧
    (NewService (Postgres.Client Unit).traced).StoreDiagnosisKeys () none ([testKey], [])
      = (([testKey], [] ++ [RepoCall.store () none]), some GoError.ErrNilDiagKeys) :=
  StoreDiagnosisKeys_empty_batch (Postgres.Client Unit) () none [testKey] [] rfl
    (fun _ b s hb => by simp [Postgres.Client, hb])

/-- C8: for every repository and every batch, the non-empty ones in particular,
`Service.StoreDiagnosisKeys` makes exactly one call to the repository's
`StoreDiagnosisKeys`, with the same context and the same batch (same keys, same order), and
returns exactly what that call returns, the state it leaves included: nil on success, the
repository's own error on failure. -/
theorem StoreDiagnosisKeys_delegates {κ σ : Type} (repo : Repository κ σ) (ctx : κ)
    (batch : Option (List DiagnosisKey)) (st : σ) (log : List (RepoCall κ)) :
    (NewService repo).StoreDiagnosisKeys ctx batch st = repo.StoreDiagnosisKeys ctx batch st ∧
    (NewService repo.traced).StoreDiagnosisKeys ctx batch (st, log)
      = (((repo.StoreDiagnosisKeys ctx batch st).1, log ++ [RepoCall.store ctx batch]),
          (repo.StoreDiagnosisKeys ctx batch st).2) := by
  constructor <;> rfl

/-- C11: all-or-nothing decode. For every outcome of the `Read` with `0 <= n <= 281` and
every error value, `ParseDiagnosisKeys` returns either a nil error together with a
non-empty key list, or a non-nil error together with the nil key list; keys never come
alongside an error. -/
theorem ParseDiagnosisKeys_all_or_nothing {κ σ ρ : Type} (s : Service κ σ) (r : Reader ρ)
    (st st' : ρ) (w : List Byte) (n : Int) (err : Option GoError)
    (hread : r.Read st (makeBytes (UploadLimit + 1)) = (st', w, n, err))
    (h0 : 0 ≤ n) (h1 : n ≤ 281) :
    ∃ res : Option (List DiagnosisKey) × Option GoError,
      (s.ParseDiagnosisKeys r st).2 = .ok res ∧
      ((res.2 = none ∧ ∃ keys : List DiagnosisKey, res.1 = some keys ∧ keys ≠ []) ∨
        (res.2 ≠ none ∧ res.1 = none)) := by
  rw [ParseDiagnosisKeys_eq s r st st' w n err hread]
  rcases afterRead_contract (bufferAfter w) n err (bufferAfter_length w) h0 h1 with
    ⟨e, he⟩ | ⟨_, hpos, hle, hmul, hv⟩
  · exact ⟨_, he, Or.inr ⟨by simp, rfl⟩⟩
  · refine ⟨_, hv, Or.inl ⟨rfl, _, rfl, ?_⟩⟩
    intro hnil
    have hlen := congrArg List.length hnil
    simp only [List.length_map, List.length_range, List.length_nil] at hlen
    omega

set_option maxRecDepth 100000 in
/-- Witness of C11: a whole record read together with a hard failure gives the error and
the nil key list. -/
theorem ParseDiagnosisKeys_all_or_nothing_witness :
    ∃ res : Option (List DiagnosisKey) × Option GoError,
      ((NewService (Postgres.Client Unit)).ParseDiagnosisKeys
        (FailingReader 20 (GoError.other 7)) (encodeKey testKey)).2 = .ok res ∧
      ((res.2 = none ∧ ∃ keys : List DiagnosisKey, res.1 = some keys ∧ keys ≠ []) ∨
        (res.2 ≠ none ∧ res.1 = none)) :=
  ParseDiagnosisKeys_all_or_nothing (NewService (Postgres.Client Unit))
    (FailingReader 20 (GoError.other 7)) (encodeKey testKey) (encodeKey testKey)
    (encodeKey testKey) 20 (some (GoError.other 7)) (by decide) (by decide) (by decide)

/-- C12: batch limit. For every reader, whenever `ParseDiagnosisKeys` returns a nil error it
returns between 1 and `MaxUploadBatchSize = 14` keys; and when the `Read` error is nil or
`io.EOF`, it returns a nil error if and only if the number of bytes obtained is a positive
multiple of 20 up to `UploadLimit = 14 * 20 = 280`, that is one of 20, 40, ..., 280. -/
theorem ParseDiagnosisKeys_batch_limit {κ σ ρ : Type} (s : Service κ σ) (r : Reader ρ)
    (st st' : ρ) (w : List Byte) (n : Int) (err : Option GoError)
    (hread : r.Read st (makeBytes (UploadLimit + 1)) = (st', w, n, err)) :
    (∀ ks : Option (List DiagnosisKey), (s.ParseDiagnosisKeys r st).2 = .ok (ks, none) →
      ∃ keys : List DiagnosisKey,
        ks = some keys ∧ 1 ≤ keys.length ∧ keys.length ≤ MaxUploadBatchSize) ∧
    ((err = none ∨ err = some GoError.EOF) →
      ((∃ ks : Option (List DiagnosisKey), (s.ParseDiagnosisKeys r st).2 = .ok (ks, none)) ↔
        ∃ k : Nat, 1 ≤ k ∧ k ≤ MaxUploadBatchSize ∧ n = 20 * (k : Int))) ∧
    MaxUploadBatchSize = 14 ∧ UploadLimit = 14 * 20 ∧ UploadLimit = 280 := by
  have hlen := bufferAfter_length w
  rw [ParseDiagnosisKeys_eq s r st st' w n err hread]
  refine ⟨?_, ?_, rfl, rfl, rfl⟩
  · intro ks hks
    obtain ⟨hsoft, hpos, hle, hmul⟩ := afterRead_success _ n err ks hlen hks
    rw [afterRead_valid _ n err hsoft hpos hmul hle (by omega)] at hks
    simp only [Except.ok.injEq, Prod.mk.injEq, and_true] at hks
    refine ⟨_, hks.symm, ?_, ?_⟩
    · simp only [List.length_map, List.length_range]; omega
    · simp only [List.length_map, List.length_range, MaxUploadBatchSize]; omega
  · intro hsoft
    constructor
    · rintro ⟨ks, hks⟩
      obtain ⟨_, hpos, hle, hmul⟩ := afterRead_success _ n err ks hlen hks
      refine ⟨(n / 20).toNat, ?_, ?_, ?_⟩
      · omega
      · simp only [MaxUploadBatchSize]; omega
      · omega
    · rintro ⟨k, hk1, hk2, hn⟩
      simp only [MaxUploadBatchSize] at hk2
      exact ⟨_, afterRead_valid _ n err hsoft (by omega) (by omega) (by omega) (by omega)⟩

set_option maxRecDepth 100000 in
/-- Witness of C12: the full batch of 14 keys read through a `bytes.Reader`. -/
theorem ParseDiagnosisKeys_batch_limit_witness :
    (∃ ks : Option (List DiagnosisKey),
      ((NewService (Postgres.Client Unit)).ParseDiagnosisKeys BytesReader
        (encodeKeys (List.replicate 14 testKey))).2 = .ok (ks, none)) ↔
      ∃ k : Nat, 1 ≤ k ∧ k ≤ MaxUploadBatchSize ∧ (280 : Int) = 20 * (k : Int) :=
  (ParseDiagnosisKeys_batch_limit (NewService (Postgres.Client Unit)) BytesReader
    (encodeKeys (List.replicate 14 testKey)) [] (encodeKeys (List.replicate 14 testKey)) 280
    none (by decide)).2.1 (Or.inl rfl)

/-- C13: single bounded read. `ParseDiagnosisKeys` issues exactly one `Read`, with a buffer
of 281 bytes, and leaves the reader in the state that `Read` put it in, whatever data it
still holds; its result is a function of the outcome of that `Read` alone: two readers
whose first `Read` gives the same `n`, the same error and the same first `n` bytes give the
same result, whatever they would deliver afterwards. -/
theorem ParseDiagnosisKeys_single_read {κ σ ρ ρ' : Type} (s : Service κ σ) (r : Reader ρ)
    (r' : Reader ρ') (st st1 : ρ) (st' st1' : ρ') (w w' : List Byte) (n : Int)
    (err : Option GoError) (log : List Nat)
    (hread : r.Read st (makeBytes (UploadLimit + 1)) = (st1, w, n, err))
    (hread' : r'.Read st' (makeBytes (UploadLimit + 1)) = (st1', w', n, err))
    (hdata : (bufferAfter w).take n.toNat = (bufferAfter w').take n.toNat) :
    (s.ParseDiagnosisKeys r.traced (st, log)).1 = (st1, log ++ [281]) ∧
    (s.ParseDiagnosisKeys r.traced (st, log)).2 = (s.ParseDiagnosisKeys r st).2 ∧
    (s.ParseDiagnosisKeys r st).1 = st1 ∧
    (s.ParseDiagnosisKeys r st).2 = (s.ParseDiagnosisKeys r' st').2 := by
  have htr : r.traced.Read (st, log) (makeBytes (UploadLimit + 1))
      = ((st1, log ++ [281]), w, n, err) := by
    have hlen : (makeBytes (UploadLimit + 1)).length = 281 := List.length_replicate _ _
    show (((r.Read st (makeBytes (UploadLimit + 1))).1,
      log ++ [(makeBytes (UploadLimit + 1)).length]),
      (r.Read st (makeBytes (UploadLimit + 1))).2) = ((st1, log ++ [281]), w, n, err)
    rw [hread, hlen]
  rw [ParseDiagnosisKeys_eq s r.traced (st, log) _ w n err htr,
    ParseDiagnosisKeys_eq s r st st1 w n err hread,
    ParseDiagnosisKeys_eq s r' st' st1' w' n err hread']
  exact ⟨rfl, rfl, rfl, afterRead_congr _ _ n err (bufferAfter_length w)
    (bufferAfter_length w') hdata⟩

set_option maxRecDepth 100000 in
/-- Witness of C13: two sequences of `Read` outcomes that start with the same two records
and go on differently, one with 300 more bytes, the other with a failure. -/
theorem ParseDiagnosisKeys_single_read_witness :
    ((NewService (Postgres.Client Unit)).ParseDiagnosisKeys ScriptReader.traced
      ([(encodeKeys [testKey, testKey], 40, none), (List.replicate 300 1, 281, none)], [])).1
      = ([(List.replicate 300 1, 281, none)], [] ++ [281]) ∧
    ((NewService (Postgres.Client Unit)).ParseDiagnosisKeys ScriptReader.traced
      ([(encodeKeys [testKey, testKey], 40, none), (List.replicate 300 1, 281, none)], [])).2
      = ((NewService (Postgres.Client Unit)).ParseDiagnosisKeys ScriptReader
        [(encodeKeys [testKey, testKey], 40, none), (List.replicate 300 1, 281, none)]).2 ∧
    ((NewService (Postgres.Client Unit)).ParseDiagnosisKeys ScriptReader
      [(encodeKeys [testKey, testKey], 40, none), (List.replicate 300 1, 281, none)]).1
      = [(List.replicate 300 1, 281, none)] ∧
    ((NewService (Postgres.Client Unit)).ParseDiagnosisKeys ScriptReader
      [(encodeKeys [testKey, testKey], 40, none), (List.replicate 300 1, 281, none)]).2
      = ((NewService (Postgres.Client Unit)).ParseDiagnosisKeys ScriptReader
        [(encodeKeys [testKey, testKey], 40, none), ([], 0, some (GoError.other 3))]).2 :=
  ParseDiagnosisKeys_single_read (NewService (Postgres.Client Unit)) ScriptReader ScriptReader
    [(encodeKeys [testKey, testKey], 40, none), (List.replicate 300 1, 281, none)]
    [(List.replicate 300 1, 281, none)]
    [(encodeKeys [testKey, testKey], 40, none), ([], 0, some (GoError.other 3))]
    [([], 0, some (GoError.other 3))]
    (encodeKeys [testKey, testKey]) (encodeKeys [testKey, testKey]) 40 none []
    rfl rfl rfl

set_option maxRecDepth 100000 in
/-- C14: fragmented delivery. There is a legitimate batch, the 40 bytes of two keys, which
decodes when it comes in one `Read`, and a reader that delivers it in fragments smaller
than the payload, 10 bytes per `Read`, through which `ParseDiagnosisKeys` takes the batch
for a truncated one and fails with `io.ErrUnexpectedEOF`. -/
theorem ParseDiagnosisKeys_fragmented :
    ∃ (batch : List DiagnosisKey) (chunk : Nat),
      1 ≤ batch.length ∧ batch.length ≤ MaxUploadBatchSize ∧
      (encodeKeys batch).length = 40 ∧ chunk = 10 ∧
      ((NewService (Postgres.Client Unit)).ParseDiagnosisKeys BytesReader
        (encodeKeys batch)).2 = .ok (some batch, none) ∧
      ((NewService (Postgres.Client Unit)).ParseDiagnosisKeys (ChunkReader chunk)
        (encodeKeys batch)) = ((encodeKeys batch).drop chunk,
          .ok (none, some GoError.ErrUnexpectedEOF)) :=
  ⟨[testKey, testKey], 10, by decide⟩

/-- Counterexample to C15: a `Read` that obtains 281 bytes and fails with an error other
than `io.EOF` makes `ParseDiagnosisKeys` return that error, not `ErrMaxUploadExceeded`. -/
theorem ParseDiagnosisKeys_limit_counterexample :
    ((NewService (Postgres.Client Unit)).ParseDiagnosisKeys
      (FailingReader 281 (GoError.other 7)) (List.replicate 281 1)).2
      = .ok (none, some (GoError.other 7)) ∧
    ((NewService (Postgres.Client Unit)).ParseDiagnosisKeys
      (FailingReader 281 (GoError.other 7)) (List.replicate 281 1)).2
      ≠ .ok (none, some GoError.ErrMaxUploadExceeded) := by
  constructor
  · rfl
  · rw [show ((NewService (Postgres.Client Unit)).ParseDiagnosisKeys
      (FailingReader 281 (GoError.other 7)) (List.replicate 281 1)).2
      = .ok (none, some (GoError.other 7)) from rfl]
    decide

/-- C15, amended: whenever the bounded `Read` obtains 281 bytes, `ParseDiagnosisKeys` returns
no keys and fails: with `ErrMaxUploadExceeded` when the error that comes with the bytes is
nil or `io.EOF`, and with that error itself when it is a hard failure. -/
theorem ParseDiagnosisKeys_limit {κ σ ρ : Type} (s : Service κ σ) (r : Reader ρ)
    (st st' : ρ) (w : List Byte) (err : Option GoError)
    (hread : r.Read st (makeBytes (UploadLimit + 1)) = (st', w, 281, err)) :
    (s.ParseDiagnosisKeys r st).2
      = .ok (none, if err = none ∨ err = some GoError.EOF
          then some GoError.ErrMaxUploadExceeded else err) := by
  rw [ParseDiagnosisKeys_eq s r st st' w 281 err hread]
  by_cases hsoft : err = none ∨ err = some GoError.EOF
  · rw [afterRead_soft _ _ err hsoft, afterRead_limit, if_pos hsoft]
  · have hne : err ≠ none := fun hc => hsoft (Or.inl hc)
    obtain ⟨e, rfl⟩ := Option.ne_none_iff_exists'.mp hne
    have he : e ≠ GoError.EOF := fun hc => hsoft (Or.inr (by rw [hc]))
    rw [afterRead_hard _ _ e he, if_neg hsoft]

set_option maxRecDepth 100000 in
/-- Witness of the amended C15: 281 bytes obtained together with `io.EOF`. -/
theorem ParseDiagnosisKeys_limit_witness :
    ((NewService (Postgres.Client Unit)).ParseDiagnosisKeys
      (FailingReader 281 GoError.EOF) (List.replicate 281 1)).2
      = .ok (none, if some GoError.EOF = none ∨ some GoError.EOF = some GoError.EOF
          then some GoError.ErrMaxUploadExceeded else some GoError.EOF) :=
  ParseDiagnosisKeys_limit (NewService (Postgres.Client Unit))
    (FailingReader 281 GoError.EOF) (List.replicate 281 1) (List.replicate 281 1)
    (List.replicate 281 1) (some GoError.EOF) (by decide)

set_option maxRecDepth 100000 in
/-- Counterexample to C16: a `Read` that obtains 21 bytes with a nil error respects
`0 <= n <= 281`, yet `ParseDiagnosisKeys` returns `io.ErrUnexpectedEOF` out of the `switch`
and its loop is not entered: the iteration log is empty, 0 iterations, while
`n / 20 = 1`. -/
theorem ParseDiagnosisKeys_index_safety_counterexample :
    ((NewService (Postgres.Client Unit)).ParseDiagnosisKeys BytesReader
      (List.replicate 21 1)).2 = .ok (none, some GoError.ErrUnexpectedEOF) ∧
    ParseDiagnosisKeys.afterReadLog (bufferAfter (List.replicate 21 1)) 21 none
      = .ok ((none, some GoError.ErrUnexpectedEOF), []) ∧
    ((([] : List LoopEntry).length : Nat) : Int) ≠ (21 : Int) / 20 := by
  refine ⟨rfl, rfl, by decide⟩

/-- C16, amended: index safety. For every `Read` outcome with `0 <= n <= 281`,
`ParseDiagnosisKeys` ends without a panic, and every slice it takes in its decoding loop,
`buf[20i : 20i+16]` and `buf[20i+16 : 20i+20]` with `i < n / 20`, lies inside the first `n`
bytes of the 281-byte buffer and is taken without a panic. The loop runs exactly `n / 20`
times, for `i = 0, ..., n / 20 - 1`, when the `switch` lets the call through to it (the
error is nil or `io.EOF` and `n` is one of 20, 40, ..., 280, the calls that return a nil
error), and is not entered when the `switch` returns first. The iterations and slices
are those logged by the function run with its iteration log, whose result is the
function's. -/
theorem ParseDiagnosisKeys_index_safety {κ σ ρ : Type} (s : Service κ σ) (r : Reader ρ)
    (st st' : ρ) (w : List Byte) (n : Int) (err : Option GoError)
    (hread : r.Read st (makeBytes (UploadLimit + 1)) = (st', w, n, err))
    (h0 : 0 ≤ n) (h1 : n ≤ 281) :
    (bufferAfter w).length = UploadLimit + 1 ∧
    (s.ParseDiagnosisKeys r st).2
      = Except.map Prod.fst (ParseDiagnosisKeys.afterReadLog (bufferAfter w) n err) ∧
    ∃ (res : Option (List DiagnosisKey) × Option GoError) (log : List LoopEntry),
      ParseDiagnosisKeys.afterReadLog (bufferAfter w) n err = .ok (res, log) ∧
      (s.ParseDiagnosisKeys r st).2 = .ok res ∧
      (res.2 = none ↔
        ((err = none ∨ err = some GoError.EOF) ∧ 0 < n ∧ n ≤ 280 ∧ n % 20 = 0)) ∧
      (res.2 = none →
        log = (List.range (n / 20).toNat).map loopEntry ∧ (log.length : Int) = n / 20) ∧
      (res.2 ≠ none → log = []) ∧
      ∀ e ∈ log,
        (e.i : Int) < n / 20 ∧
        e.keyLow = e.i * 20 ∧ e.keyHigh = e.i * 20 + 16 ∧
        e.eninLow = e.i * 20 + 16 ∧ e.eninHigh = e.i * 20 + 20 ∧
        (e.eninHigh : Int) ≤ n ∧
        sliceExpr (bufferAfter w) e.keyLow e.keyHigh
          = .ok ((((bufferAfter w).take n.toNat).drop e.keyLow).take 16) ∧
        sliceExpr (bufferAfter w) e.eninLow e.eninHigh
          = .ok ((((bufferAfter w).take n.toNat).drop e.eninLow).take 4) := by
  have hlen := bufferAfter_length w
  have htie : (s.ParseDiagnosisKeys r st).2
      = Except.map Prod.fst (ParseDiagnosisKeys.afterReadLog (bufferAfter w) n err) := by
    rw [ParseDiagnosisKeys_eq s r st st' w n err hread, afterReadLog_fst]
  refine ⟨hlen, htie, ?_⟩
  rcases afterReadLog_contract (bufferAfter w) n err hlen h0 h1 with
    ⟨e, he⟩ | ⟨hsoft, hpos, hle, hmul, hv⟩
  · have hres : (s.ParseDiagnosisKeys r st).2 = .ok (none, some e) := by rw [htie, he]; rfl
    refine ⟨(none, some e), [], he, hres, ?_, ?_, ?_, ?_⟩
    · constructor
      · intro h
        simp at h
      · rintro ⟨hsoft, hpos, hle, hmul⟩
        rw [ParseDiagnosisKeys_eq s r st st' w n err hread,
          afterRead_valid _ n err hsoft hpos hmul hle (by omega)] at hres
        simp at hres
    · intro h
      simp at h
    · intro _
      rfl
    · intro e' he'
      simp at he'
  · have hres : (s.ParseDiagnosisKeys r st).2
        = .ok (some ((List.range (n / 20).toNat).map (recordAt (bufferAfter w))), none) := by
      rw [htie, hv]; rfl
    refine ⟨_, _, hv, hres, ?_, ?_, ?_, ?_⟩
    · exact ⟨fun _ => ⟨hsoft, hpos, hle, hmul⟩, fun _ => rfl⟩
    · intro _
      refine ⟨rfl, ?_⟩
      simp only [List.length_map, List.length_range]
      omega
    · intro h
      exact absurd rfl h
    · intro e he
      obtain ⟨i, hi, rfl⟩ := List.mem_map.mp he
      have hi' : i < (n / 20).toNat := List.mem_range.mp hi
      have hb : i * 20 + 20 ≤ n.toNat := by omega
      refine ⟨by simp only [loopEntry]; omega, rfl, rfl, rfl, rfl,
        by simp only [loopEntry]; omega, ?_, ?_⟩
      · simp only [loopEntry]
        unfold sliceExpr
        rw [if_pos (by omega), List.drop_take, List.take_take, Nat.min_eq_left (by omega)]
        simp
      · simp only [loopEntry]
        unfold sliceExpr
        rw [if_pos (by omega), List.drop_take, List.take_take, Nat.min_eq_left (by omega)]
        simp

set_option maxRecDepth 100000 in
/-- Witness of the amended C16: the full batch of 14 keys, `n = 280`; the function returns
and its log holds 14 iterations. -/
theorem ParseDiagnosisKeys_index_safety_witness :
    ∃ (res : Option (List DiagnosisKey) × Option GoError) (log : List LoopEntry),
      ParseDiagnosisKeys.afterReadLog (bufferAfter (encodeKeys (List.replicate 14 testKey)))
        280 none = .ok (res, log) ∧
      ((NewService (Postgres.Client Unit)).ParseDiagnosisKeys BytesReader
        (encodeKeys (List.replicate 14 testKey))).2 = .ok res ∧
      (log.length : Int) = (280 : Int) / 20 :=
  match (ParseDiagnosisKeys_index_safety (NewService (Postgres.Client Unit)) BytesReader
    (encodeKeys (List.replicate 14 testKey)) [] (encodeKeys (List.replicate 14 testKey)) 280
    none (by decide) (by decide) (by decide)).2.2 with
  | ⟨res, log, hlog, hres, hiff, hrun, _⟩ =>
    ⟨res, log, hlog, hres, (hrun (hiff.mpr ⟨Or.inl rfl, by decide, by decide, by decide⟩)).2⟩

/-- C17: decoding loses nothing. For every byte string `b` whose length is a positive
multiple of 20 and at most 280, delivered in one `Read`, re-encoding the keys
`ParseDiagnosisKeys` returns (token bytes, then the 4-byte big-endian interval number,
concatenated in order) gives back exactly `b`; hence two valid payloads that decode to the
same result are the same payload. -/
theorem ParseDiagnosisKeys_lossless {κ σ ρ ρ' : Type} (s : Service κ σ) (r : Reader ρ)
    (st : ρ) (b : List Byte) (r' : Reader ρ') (st' : ρ') (b' : List Byte)
    (hpos : 0 < b.length) (hmul : b.length % 20 = 0) (hle : b.length ≤ 280)
    (hd : r.delivers st b)
    (hpos' : 0 < b'.length) (hmul' : b'.length % 20 = 0) (hle' : b'.length ≤ 280)
    (hd' : r'.delivers st' b') :
    (∃ keys : List DiagnosisKey,
      (s.ParseDiagnosisKeys r st).2 = .ok (some keys, none) ∧ encodeKeys keys = b) ∧
    ((s.ParseDiagnosisKeys r st).2 = (s.ParseDiagnosisKeys r' st').2 → b = b') := by
  have hp := ParseDiagnosisKeys_delivers s r st b hpos hmul hle hd
  have hp' := ParseDiagnosisKeys_delivers s r' st' b' hpos' hmul' hle' hd'
  have henc : ∀ c : List Byte, c.length % 20 = 0 →
      encodeKeys ((List.range (c.length / 20)).map (recordAt c)) = c := by
    intro c hc
    rw [encodeKeys_map_recordAt c (c.length / 20) (by omega),
      show c.length / 20 * 20 = c.length by omega, List.take_length]
  refine ⟨⟨_, hp, henc b hmul⟩, ?_⟩
  intro heq
  rw [hp, hp'] at heq
  simp only [Except.ok.injEq, Prod.mk.injEq, and_true, Option.some.injEq] at heq
  rw [← henc b hmul, ← henc b' hmul', heq]

set_option maxRecDepth 100000 in
/-- Witness of C17: the two-record payload of the test key against a one-record payload,
both read through a `bytes.Reader`. -/
theorem ParseDiagnosisKeys_lossless_witness :
    (∃ keys : List DiagnosisKey,
      ((NewService (Postgres.Client Unit)).ParseDiagnosisKeys BytesReader
        (encodeKeys [testKey, testKey])).2 = .ok (some keys, none) ∧
      encodeKeys keys = encodeKeys [testKey, testKey]) ∧
    (((NewService (Postgres.Client Unit)).ParseDiagnosisKeys BytesReader
        (encodeKeys [testKey, testKey])).2
      = ((NewService (Postgres.Client Unit)).ParseDiagnosisKeys BytesReader
        (encodeKeys [testKey])).2 → encodeKeys [testKey, testKey] = encodeKeys [testKey]) :=
  ParseDiagnosisKeys_lossless (NewService (Postgres.Client Unit)) BytesReader
    (encodeKeys [testKey, testKey]) (encodeKeys [testKey, testKey]) BytesReader
    (encodeKeys [testKey]) (encodeKeys [testKey])
    (by decide) (by decide) (by decide) (by decide)
    (by decide) (by decide) (by decide) (by decide)

/-- C18: decoding is record-wise. For every two valid payloads `a` and `b` (each a positive
multiple of 20 bytes) with `len a + len b <= 280`, `ParseDiagnosisKeys` on `a ++ b`
delivered in one `Read` returns the keys decoded from `a` followed by the keys decoded from
`b`; and the key at position `i` is the decoding of bytes `[20i, 20i+20)` of the payload,
so it depends on these bytes only. -/
theorem ParseDiagnosisKeys_record_wise {κ σ ρa ρb ρc : Type} (s : Service κ σ)
    (ra : Reader ρa) (sta : ρa) (rb : Reader ρb) (stb : ρb) (rc : Reader ρc) (stc : ρc)
    (a b : List Byte)
    (hposa : 0 < a.length) (hmula : a.length % 20 = 0)
    (hposb : 0 < b.length) (hmulb : b.length % 20 = 0)
    (hle : a.length + b.length ≤ 280)
    (hda : ra.delivers sta a) (hdb : rb.delivers stb b) (hdc : rc.delivers stc (a ++ b)) :
    ∃ ka kb : List DiagnosisKey,
      (s.ParseDiagnosisKeys ra sta).2 = .ok (some ka, none) ∧
      (s.ParseDiagnosisKeys rb stb).2 = .ok (some kb, none) ∧
      (s.ParseDiagnosisKeys rc stc).2 = .ok (some (ka ++ kb), none) ∧
      (ka ++ kb).length = (a ++ b).length / 20 ∧
      ∀ i : Nat, i < (ka ++ kb).length →
        (ka ++ kb)[i]? = some (decodeRecord (((a ++ b).drop (i * 20)).take 20)) := by
  have hpa := ParseDiagnosisKeys_delivers s ra sta a hposa hmula (by omega) hda
  have hpb := ParseDiagnosisKeys_delivers s rb stb b hposb hmulb (by omega) hdb
  have hlc : (a ++ b).length = a.length + b.length := List.length_append a b
  have hpc := ParseDiagnosisKeys_delivers s rc stc (a ++ b) (by omega) (by omega) (by omega) hdc
  have hsplit : (a ++ b).length / 20 = a.length / 20 + b.length / 20 := by omega
  have happ := map_recordAt_append a b (a.length / 20) (b.length / 20) (by omega)
  refine ⟨_, _, hpa, hpb, ?_, ?_, ?_⟩
  · rw [hpc, hsplit, happ]
  · simp only [List.length_append, List.length_map, List.length_range]
    omega
  · intro i hi
    rw [← happ] at hi ⊢
    simp only [List.length_map, List.length_range] at hi
    simp [List.getElem?_map, List.getElem?_range, hi, recordAt]

set_option maxRecDepth 100000 in
/-- Witness of C18: one record of the test key followed by two, read through a
`bytes.Reader`. -/
theorem ParseDiagnosisKeys_record_wise_witness :
    ∃ ka kb : List DiagnosisKey,
      ((NewService (Postgres.Client Unit)).ParseDiagnosisKeys BytesReader
        (encodeKeys [testKey])).2 = .ok (some ka, none) ∧
      ((NewService (Postgres.Client Unit)).ParseDiagnosisKeys BytesReader
        (encodeKeys [testKey, testKey])).2 = .ok (some kb, none) ∧
      ((NewService (Postgres.Client Unit)).ParseDiagnosisKeys BytesReader
        (encodeKeys [testKey] ++ encodeKeys [testKey, testKey])).2
        = .ok (some (ka ++ kb), none) ∧
      (ka ++ kb).length = (encodeKeys [testKey] ++ encodeKeys [testKey, testKey]).length / 20 ∧
      ∀ i : Nat, i < (ka ++ kb).length →
        (ka ++ kb)[i]? = some (decodeRecord
          (((encodeKeys [testKey] ++ encodeKeys [testKey, testKey]).drop (i * 20)).take 20)) :=
  ParseDiagnosisKeys_record_wise (NewService (Postgres.Client Unit)) BytesReader
    (encodeKeys [testKey]) BytesReader (encodeKeys [testKey, testKey]) BytesReader
    (encodeKeys [testKey] ++ encodeKeys [testKey, testKey])
    (encodeKeys [testKey]) (encodeKeys [testKey, testKey])
    (by decide) (by decide) (by decide) (by decide) (by decide)
    (by decide) (by decide) (by decide)

end Diag
